import Mathlib

/-!
Verification of `scripts/ml/train_categorizer.py` (transaction-categorizer
training pipeline).

The Python source is shallowly embedded as executable Lean functions over
`List Char` / `String`.  Modelling conventions, fixed once here:

* Python `re` word characters (`\w`, used by `\b`) are modelled as ASCII
  alphanumerics plus underscore; Python whitespace (`\s`) as the six ASCII
  whitespace characters.  The regexes of the source run after accent removal,
  so on the modelled character set this matches CPython's behaviour.
* `str.upper()` and Unicode NFD decomposition are modelled by finite
  character tables covering ASCII plus the Latin accented characters that
  occur in Brazilian bank data (the set the script is written for); every
  other character is left unchanged / atomic.
* `numpy` / `scikit-learn` matrices are modelled as `List (List ℚ)` (rows);
  TF-IDF entries model the raw term counts that the weights are computed
  from — the floating-point idf/l2 scaling is not modelled, and no claim
  depends on entry values, only on vector shapes and zero/non-zero pattern.
-/

/-- Word character of Python `re` (`\w` over the modelled set): ASCII letter,
ASCII digit or underscore. -/
def isWordChar (c : Char) : Bool :=
  (decide ('A' ≤ c) && decide (c ≤ 'Z')) || (decide ('a' ≤ c) && decide (c ≤ 'z')) ||
  (decide ('0' ≤ c) && decide (c ≤ '9')) || c == '_'

/-- Whitespace of Python `re` (`\s` over the modelled set): space, tab,
newline, carriage return, vertical tab, form feed. -/
def isPySpace (c : Char) : Bool :=
  c == ' ' || c == '\t' || c == '\n' || c == '\r' || c == '\x0b' || c == '\x0c'

/-- Does the list begin with a word character?  (`false` for the empty list:
the end of the string is a word boundary in `re`.) -/
def headIsWord : List Char → Bool
  | [] => false
  | c :: _ => isWordChar c

/-- Lowercase-to-uppercase table modelling `str.upper()` on the modelled
character set: ASCII letters plus Latin accented letters. -/
def upperTable : List (Char × Char) :=
  [('a','A'),('b','B'),('c','C'),('d','D'),('e','E'),('f','F'),('g','G'),
   ('h','H'),('i','I'),('j','J'),('k','K'),('l','L'),('m','M'),('n','N'),
   ('o','O'),('p','P'),('q','Q'),('r','R'),('s','S'),('t','T'),('u','U'),
   ('v','V'),('w','W'),('x','X'),('y','Y'),('z','Z'),
   ('á','Á'),('à','À'),('â','Â'),('ã','Ã'),('ä','Ä'),
   ('é','É'),('è','È'),('ê','Ê'),('ë','Ë'),
   ('í','Í'),('ì','Ì'),('î','Î'),('ï','Ï'),
   ('ó','Ó'),('ò','Ò'),('ô','Ô'),('õ','Õ'),('ö','Ö'),
   ('ú','Ú'),('ù','Ù'),('û','Û'),('ü','Ü'),
   ('ç','Ç'),('ñ','Ñ')]

/-- Character-level `str.upper()` over the modelled set. -/
def upperChar (c : Char) : Char :=
  match upperTable.find? (fun e => e.1 == c) with
  | some e => e.2
  | none => c

/-- `str.upper()` on a character list. -/
def upperL (l : List Char) : List Char := l.map upperChar

/-- Combining diacritical mark (the Unicode block U+0300–U+036F removed by
the source's `re.sub(r"[̀-ͯ]", "", ...)`). -/
def isMark (c : Char) : Bool := decide (0x300 ≤ c.toNat) && decide (c.toNat ≤ 0x36f)

/-- NFD decompositions of the modelled precomposed Latin letters: each maps
to its base letter followed by a combining mark in U+0300–U+036F. -/
def nfdTable : List (Char × List Char) :=
  [('Á',['A','\u0301']),('À',['A','\u0300']),('Â',['A','\u0302']),
   ('Ã',['A','\u0303']),('Ä',['A','\u0308']),
   ('É',['E','\u0301']),('È',['E','\u0300']),('Ê',['E','\u0302']),('Ë',['E','\u0308']),
   ('Í',['I','\u0301']),('Ì',['I','\u0300']),('Î',['I','\u0302']),('Ï',['I','\u0308']),
   ('Ó',['O','\u0301']),('Ò',['O','\u0300']),('Ô',['O','\u0302']),
   ('Õ',['O','\u0303']),('Ö',['O','\u0308']),
   ('Ú',['U','\u0301']),('Ù',['U','\u0300']),('Û',['U','\u0302']),('Ü',['U','\u0308']),
   ('Ç',['C','\u0327']),('Ñ',['N','\u0303']),
   ('á',['a','\u0301']),('à',['a','\u0300']),('â',['a','\u0302']),
   ('ã',['a','\u0303']),('ä',['a','\u0308']),
   ('é',['e','\u0301']),('è',['e','\u0300']),('ê',['e','\u0302']),('ë',['e','\u0308']),
   ('í',['i','\u0301']),('ì',['i','\u0300']),('î',['i','\u0302']),('ï',['i','\u0308']),
   ('ó',['o','\u0301']),('ò',['o','\u0300']),('ô',['o','\u0302']),
   ('õ',['o','\u0303']),('ö',['o','\u0308']),
   ('ú',['u','\u0301']),('ù',['u','\u0300']),('û',['u','\u0302']),('ü',['u','\u0308']),
   ('ç',['c','\u0327']),('ñ',['n','\u0303'])]

/-- NFD decomposition of one character (identity outside the table). -/
def nfdChar (c : Char) : List Char :=
  match nfdTable.find? (fun e => e.1 == c) with
  | some e => e.2
  | none => [c]

/-- Accent removal of the source: `unicodedata.normalize("NFD", s)` followed
by `re.sub(r"[̀-ͯ]", "", s)`. -/
def deaccentL (l : List Char) : List Char :=
  (l.flatMap nfdChar).filter (fun c => !isMark c)

/-- Drop leading Python whitespace (left half of `str.strip()`). -/
def lstrip (l : List Char) : List Char := l.dropWhile isPySpace

/-- Drop trailing Python whitespace (right half of `str.strip()`). -/
def rstrip (l : List Char) : List Char := (l.reverse.dropWhile isPySpace).reverse

/-- Python `str.strip()`. -/
def stripL (l : List Char) : List Char := rstrip (lstrip l)

/-- Does a match of `\b\d{4,}\b` start at this position?  (The caller
guarantees the leading boundary; a match is a maximal digit run of length at
least 4 whose following character is not a word character.) -/
def longRunAt (l : List Char) : Bool :=
  4 ≤ (l.takeWhile Char.isDigit).length && !headIsWord (l.dropWhile Char.isDigit)

/-- Scanner for `re.sub(r"\b\d{4,}\b", "", s)`.  `skip` is the number of
still-to-delete characters of a found match; `prevWord` tracks whether the
previous character of the original string is a word character (the state of
`\b`). -/
def remRunsA : Nat → Bool → List Char → List Char
  | _ + 1, _, [] => []
  | skip + 1, _, _ :: cs => remRunsA skip true cs
  | 0, _, [] => []
  | 0, prevWord, c :: cs =>
    if !prevWord && c.isDigit && longRunAt (c :: cs) then
      remRunsA (((c :: cs).takeWhile Char.isDigit).length - 1) true cs
    else
      c :: remRunsA 0 (isWordChar c) cs

/-- Removal of card/account numbers: `re.sub(r"\b\d{4,}\b", "", s)`. -/
def remRuns (l : List Char) : List Char := remRunsA 0 false l

/-- Does the string contain a match of `\b\d{4,}\b`?  (Position-wise scan;
used to state that the removal above leaves nothing behind.) -/
def hasRunA : Bool → List Char → Bool
  | _, [] => false
  | prevWord, c :: cs =>
    if !prevWord && c.isDigit && longRunAt (c :: cs) then true
    else hasRunA (isWordChar c) cs

/-- Whole-string form of `hasRunA`. -/
def hasRun (l : List Char) : Bool := hasRunA false l

/-- Does the list begin with a slash? -/
def headSlash : List Char → Bool
  | [] => false
  | c :: _ => c == '/'

/-- Length of the match of `\b\d{2}/\d{2}(/\d{2,4})?\b` starting at this
position, if any (the caller guarantees the leading boundary).  The optional
year group is greedy; if it cannot complete with a trailing boundary the
match falls back to the five-character `\d{2}/\d{2}` form, whose trailing
boundary at the following `/` always holds. -/
def dateAt : List Char → Option Nat
  | d1 :: d2 :: s :: d3 :: d4 :: rest =>
    if d1.isDigit && d2.isDigit && s == '/' && d3.isDigit && d4.isDigit then
      if headSlash rest then
        if decide (2 ≤ (rest.tail.takeWhile Char.isDigit).length) &&
            decide ((rest.tail.takeWhile Char.isDigit).length ≤ 4) &&
            !headIsWord (rest.tail.dropWhile Char.isDigit)
        then some (6 + (rest.tail.takeWhile Char.isDigit).length)
        else some 5
      else if headIsWord rest then none else some 5
    else none
  | _ => none

/-- Scanner for `re.sub(r"\b\d{2}/\d{2}(/\d{2,4})?\b", "", s)`, with the same
`skip`/`prevWord` state as `remRunsA`. -/
def remDatesA : Nat → Bool → List Char → List Char
  | _ + 1, _, [] => []
  | skip + 1, _, _ :: cs => remDatesA skip true cs
  | 0, _, [] => []
  | 0, prevWord, c :: cs =>
    match (if !prevWord then dateAt (c :: cs) else none) with
    | some n => remDatesA (n - 1) true cs
    | none => c :: remDatesA 0 (isWordChar c) cs

/-- Removal of inline dates: `re.sub(r"\b\d{2}/\d{2}(/\d{2,4})?\b", "", s)`. -/
def remDates (l : List Char) : List Char := remDatesA 0 false l

/-- Does the string contain a match of the date pattern? -/
def hasDateA : Bool → List Char → Bool
  | _, [] => false
  | prevWord, c :: cs =>
    if !prevWord && (dateAt (c :: cs)).isSome then true
    else hasDateA (isWordChar c) cs

/-- Whole-string form of `hasDateA`. -/
def hasDate (l : List Char) : Bool := hasDateA false l

/-- Scanner for `re.sub(r"\s+", " ", s)`: every maximal whitespace run
becomes a single space.  `inSpace` records whether the previous character was
whitespace. -/
def collapseA : Bool → List Char → List Char
  | _, [] => []
  | inSpace, c :: cs =>
    if isPySpace c then
      if inSpace then collapseA true cs else ' ' :: collapseA true cs
    else c :: collapseA false cs

/-- Whitespace collapsing: `re.sub(r"\s+", " ", s)`. -/
def collapseL (l : List Char) : List Char := collapseA false l

/-- Strip a literal leading pattern, returning the remainder on success. -/
def stripLead : List Char → List Char → Option (List Char)
  | [], l => some l
  | _ :: _, [] => none
  | p :: ps, c :: cs => if c == p then stripLead ps cs else none

/-- Match one gateway pattern `^BASE\*` (or `^BASE\s?\*` when `optSpace`)
against the start of the string, returning the remainder after the `*`. -/
def matchSub (base : List Char) (optSpace : Bool) (l : List Char) : Option (List Char) :=
  match stripLead base l with
  | some ('*' :: r) => some r
  | some (c :: '*' :: r) => if optSpace && isPySpace c then some r else none
  | _ => none

/-- One `re.sub("^...", repl, s)` of the gateway block. -/
def applySub (base : List Char) (optSpace : Bool) (repl : List Char) (l : List Char) :
    List Char :=
  match matchSub base optSpace l with
  | some r => repl ++ r
  | none => l

/-- Replacement text `GATEWAY*` of the first seven gateway rules. -/
def gwRepl : List Char := ['G','A','T','E','W','A','Y','*']

/-- Replacement text `PICPAY*` of the eighth rule. -/
def ppRepl : List Char := ['P','I','C','P','A','Y','*']

/-- The eight ordered gateway-prefix substitutions of the source
(lines `normalized = re.sub(r"^DL\*", ...)` through `^PICPAY\*`). -/
def gatewayRewrite (l : List Char) : List Char :=
  let n1 := applySub ['D','L'] false gwRepl l
  let n2 := applySub ['M','P'] true gwRepl n1
  let n3 := applySub ['P','A','G'] false gwRepl n2
  let n4 := applySub ['I','F','D'] false gwRepl n3
  let n5 := applySub ['E','C'] true gwRepl n4
  let n6 := applySub ['E','B','N'] false gwRepl n5
  let n7 := applySub ['P','G'] true gwRepl n6
  applySub ['P','I','C','P','A','Y'] false ppRepl n7

/-- How many of the eight gateway substitutions fire during the sequential
application of `gatewayRewrite`. -/
def gatewayFired (l : List Char) : Nat :=
  let c1 := if (matchSub ['D','L'] false l).isSome then 1 else 0
  let n1 := applySub ['D','L'] false gwRepl l
  let c2 := if (matchSub ['M','P'] true n1).isSome then 1 else 0
  let n2 := applySub ['M','P'] true gwRepl n1
  let c3 := if (matchSub ['P','A','G'] false n2).isSome then 1 else 0
  let n3 := applySub ['P','A','G'] false gwRepl n2
  let c4 := if (matchSub ['I','F','D'] false n3).isSome then 1 else 0
  let n4 := applySub ['I','F','D'] false gwRepl n3
  let c5 := if (matchSub ['E','C'] true n4).isSome then 1 else 0
  let n5 := applySub ['E','C'] true gwRepl n4
  let c6 := if (matchSub ['E','B','N'] false n5).isSome then 1 else 0
  let n6 := applySub ['E','B','N'] false gwRepl n5
  let c7 := if (matchSub ['P','G'] true n6).isSome then 1 else 0
  let n7 := applySub ['P','G'] true gwRepl n6
  let c8 := if (matchSub ['P','I','C','P','A','Y'] false n7).isSome then 1 else 0
  c1 + c2 + c3 + c4 + c5 + c6 + c7 + c8

/-- Core of `normalize_description` on character lists, mirroring the source
line by line: uppercase, strip, NFD + mark removal, long-digit-run removal,
inline-date removal, the eight gateway substitutions, whitespace collapsing,
final strip. -/
def normalizeL (l : List Char) : List Char :=
  let n1 := stripL (upperL l)
  let n2 := deaccentL n1
  let n3 := remRuns n2
  let n4 := remDates n3
  let n5 := gatewayRewrite n4
  stripL (collapseL n5)

/-- The source's `normalize_description` (its `if not text: return ""` guard
is the empty-string test on the modelled `str` input). -/
def normalize_description (s : String) : String :=
  if s = "" then "" else ⟨normalizeL s.toList⟩

/-- String-level view of the gateway-substitution block alone. -/
def gatewayRewriteStr (s : String) : String := ⟨gatewayRewrite s.toList⟩

/-- The fixed ordered list of known banks (`BANCOS_CONHECIDOS`). -/
def BANCOS_CONHECIDOS : List String :=
  ["NUBANK", "MERCADO PAGO", "C6", "ITAU", "SANTANDER",
   "PICPAY", "XP", "RENNER", "BRADESCO", "INTER", "CAIXA"]

/-- Python truthiness fallback `banco or "desconhecido"` on the values for
which the source's `.upper()` then succeeds: `none` models a JSON null bank
value (Python `None`, falsy) and the empty string is falsy.  A bank key
absent from the record instead reaches the function as the truthy pandas
NaN and is modelled separately by `BancoCell`. -/
def bancoOrDefault : Option String → String
  | none => "desconhecido"
  | some s => if s = "" then "desconhecido" else s

/-- Contiguous-substring test (Python's `in` on strings): does `needle`
occur inside `hay`? -/
def isSubstr (needle : List Char) : List Char → Bool
  | [] => (stripLead needle []).isSome
  | c :: t => (stripLead needle (c :: t)).isSome || isSubstr needle t

/-- Inner loop of `encode_banco`: the first bank name contained in the
normalized text gets indicator 1 and the loop breaks, so every later entry
stays 0. -/
def encodeLoop (bancoNorm : List Char) : List String → List Nat
  | [] => []
  | b :: bs =>
    if isSubstr (upperL b.toList) bancoNorm then 1 :: bs.map (fun _ => 0)
    else 0 :: encodeLoop bancoNorm bs

/-- The source's `encode_banco`: uppercase and diacritic-strip the bank text
(defaulting to "desconhecido"), then one-hot on the first matching known
bank.  Entries model the `float32` values 0.0/1.0 as naturals. -/
def encode_banco (banco : Option String) (bancosList : List String) : List Nat :=
  encodeLoop (deaccentL (upperL (bancoOrDefault banco).toList)) bancosList

/-- A bank-field cell of the pandas frame built from the fetched records:
a JSON string value stays a string, a JSON null becomes Python `None`, and
a bank key absent from the record becomes the float NaN. -/
inductive BancoCell where
  | str : String → BancoCell
  | pynone : BancoCell
  | nan : BancoCell

/-- Python truthiness of a bank cell: the empty string and `None` are
falsy; a non-empty string and the float NaN are truthy. -/
def bancoTruthy : BancoCell → Bool
  | .str s => !(s == "")
  | .pynone => false
  | .nan => true

/-- The source's `banco or "desconhecido"`: a truthy cell passes through
unchanged, a falsy one becomes the placeholder string. -/
def bancoOrFallback (b : BancoCell) : BancoCell :=
  if bancoTruthy b then b else .str "desconhecido"

/-- `encode_banco` on a raw frame cell.  `.upper()` runs on the fallback
result: on a string the source's normalization and first-match loop produce
the vector, while on any non-string (the truthy NaN of an absent bank key)
`.upper()` raises AttributeError. -/
def encode_banco_cell (b : BancoCell) (bancosList : List String) :
    Except String (List Nat) :=
  match bancoOrFallback b with
  | .str s => Except.ok (encodeLoop (deaccentL (upperL s.toList)) bancosList)
  | .pynone => Except.error "AttributeError"
  | .nan => Except.error "AttributeError"

/-- Index of the first list entry that occurs (uppercased) as a substring of
the normalized bank text. -/
def firstMatchIdx (norm : List Char) : List String → Option Nat
  | [] => none
  | b :: bs =>
    if isSubstr (upperL b.toList) norm then some 0
    else (firstMatchIdx norm bs).map (fun i => i + 1)

/-- Specification reading of the bank encoding, following the spec's words:
locate the index of the first known bank name occurring as a substring of
the normalized bank text and produce the one-hot vector at that index, or
the all-zero vector when none occurs. -/
def encode_banco_spec (banco : Option String) (bancosList : List String) : List Nat :=
  let norm := deaccentL (upperL (bancoOrDefault banco).toList)
  match firstMatchIdx norm bancosList with
  | some i => (List.range bancosList.length).map (fun j => if j = i then 1 else 0)
  | none => List.replicate bancosList.length 0

/-- `MIN_SAMPLES_PER_CLASS` of the source. -/
def MIN_SAMPLES_PER_CLASS : Nat := 3

/-- `MIN_TOTAL_SAMPLES` of the source. -/
def MIN_TOTAL_SAMPLES : Nat := 50

/-- `TFIDF_MAX_FEATURES` of the source. -/
def TFIDF_MAX_FEATURES : Nat := 5000

/-- Raw training record as served by the data endpoint (absent JSON fields
are `none`; the decimal amount is modelled as a rational). -/
structure Registro where
  descricao : String
  categoria : Option String
  tipo : Option String
  banco : Option String
  valor : ℚ
  metodo : Option String
deriving DecidableEq

/-- Row of the prepared DataFrame. -/
structure PreparedRow where
  descricao_norm : String
  categoria : String
  tipo : String
  banco : Option String
  valor : ℚ
  sample_weight : ℚ
deriving DecidableEq

/-- Type normalization of `prepare_dataset`
(`lambda x: x if x in ("PJ", "PF") else "PJ"`; a missing field is NaN and
likewise falls to "PJ"). -/
def normTipo : Option String → String
  | some t => if t == "PJ" || t == "PF" then t else "PJ"
  | none => "PJ"

/-- Row-retention test of `prepare_dataset`: non-empty normalized
description, and a present non-empty category.  The type field is not
consulted. -/
def keepRow (r : Registro) : Bool :=
  decide (0 < (normalize_description r.descricao).length) &&
    (match r.categoria with
     | some c => c != ""
     | none => false)

/-- The source's `prepare_dataset`: normalize descriptions, drop rows with
an empty normalized description or a missing/empty category, normalize the
type, and attach sample weights (manual = 3.0, otherwise 1.0). -/
def prepare_dataset (dados : List Registro) : List PreparedRow :=
  (dados.filter keepRow).map fun r =>
    { descricao_norm := normalize_description r.descricao
      categoria := r.categoria.getD ""
      tipo := normTipo r.tipo
      banco := r.banco
      valor := r.valor
      sample_weight := if r.metodo == some "manual" then 3 else 1 }

/-- The source's `filter_rare_categories`: keep rows whose category counts
at least `minSamples` rows of the input frame. -/
def filter_rare_categories (rows : List PreparedRow) (minSamples : Nat) : List PreparedRow :=
  rows.filter fun r =>
    decide (minSamples ≤ rows.countP (fun r2 => r2.categoria == r.categoria))

/-- Insertion into a list sorted by `le`. -/
def insSorted {α : Type} (le : α → α → Bool) (a : α) : List α → List α
  | [] => [a]
  | b :: bs => if le a b then a :: b :: bs else b :: insSorted le a bs

/-- Insertion sort by `le` (models Python `sorted`). -/
def sortByB {α : Type} (le : α → α → Bool) (l : List α) : List α :=
  l.foldr (insSorted le) []

/-- Lexicographic comparison of strings. -/
def leString (a b : String) : Bool := a == b || decide (a < b)

/-- Lexicographic comparison of character lists. -/
def leChars : List Char → List Char → Bool
  | [], _ => true
  | _ :: _, [] => false
  | a :: as, b :: bs => if a == b then leChars as bs else decide (a < b)

/-- The surviving PJ frame `df_pj` (type filter then rare-category filter). -/
def dfPJ (dados : List Registro) : List PreparedRow :=
  filter_rare_categories ((prepare_dataset dados).filter (fun r => r.tipo == "PJ"))
    MIN_SAMPLES_PER_CLASS

/-- The surviving PF frame `df_pf`. -/
def dfPF (dados : List Registro) : List PreparedRow :=
  filter_rare_categories ((prepare_dataset dados).filter (fun r => r.tipo == "PF"))
    MIN_SAMPLES_PER_CLASS

/-- The source's `pj_labels`: the sorted distinct surviving PJ categories —
assigned as soon as the 10-row threshold passes, before the 2-label
diversity check — and the initial empty list otherwise. -/
def pjLabels (dados : List Registro) : List String :=
  if 10 ≤ (dfPJ dados).length
  then sortByB leString ((dfPJ dados).map (fun r => r.categoria)).dedup
  else []

/-- The source's `pf_labels`, symmetric to `pjLabels`. -/
def pfLabels (dados : List Registro) : List String :=
  if 10 ≤ (dfPF dados).length
  then sortByB leString ((dfPF dados).map (fun r => r.categoria)).dedup
  else []

/-- Whether the PJ sub-model is actually trained: both eligibility gates of
the source (at least 10 surviving rows, at least 2 distinct labels) pass. -/
def pjTrained (dados : List Registro) : Bool :=
  decide (10 ≤ (dfPJ dados).length) && decide (2 ≤ (pjLabels dados).length)

/-- Whether the PF sub-model is actually trained. -/
def pfTrained (dados : List Registro) : Bool :=
  decide (10 ≤ (dfPF dados).length) && decide (2 ≤ (pfLabels dados).length)

/-- Content of the `label_maps.json` artifact. -/
structure LabelMaps where
  tipo : List String
  pj : List String
  pf : List String
deriving DecidableEq

/-- The label-map artifact written by `main`. -/
def labelMaps (dados : List Registro) : LabelMaps :=
  { tipo := ["PF", "PJ"], pj := pjLabels dados, pf := pfLabels dados }

/-- The per-model `classes` lists of the `training_report.json` artifact
(the type model's classes come from the data, PJ/PF reuse the label lists). -/
structure ReportClasses where
  pj : List String
  pf : List String
deriving DecidableEq

/-- The `classes` entries the training report records for the sub-models. -/
def trainingReportClasses (dados : List Registro) : ReportClasses :=
  { pj := pjLabels dados, pf := pfLabels dados }

/-- Whitespace split of the `char_wb` analyzer (Python `str.split()`:
maximal whitespace runs separate, empty words are dropped). -/
def splitWordsA (acc : List Char) : List Char → List (List Char)
  | [] => (match acc with | [] => [] | _ :: _ => [acc.reverse])
  | c :: cs =>
    if isPySpace c then
      (match acc with
       | [] => splitWordsA [] cs
       | _ :: _ => acc.reverse :: splitWordsA [] cs)
    else splitWordsA (c :: acc) cs

/-- Whole-string form of `splitWordsA`. -/
def splitWords (l : List Char) : List (List Char) := splitWordsA [] l

/-- All contiguous windows of length `n`. -/
def windows (n : Nat) : List Char → List (List Char)
  | [] => []
  | c :: cs => if n ≤ (c :: cs).length then (c :: cs).take n :: windows n cs else []

/-- Character n-grams (n = 2..4) of one word padded with one space on each
side, mirroring scikit-learn's `_char_wb_ngrams`: when the padded word is no
longer than the current n it is emitted once whole and the n loop stops. -/
def wordNgrams (w : List Char) : List (List Char) :=
  let p := ' ' :: (w ++ [' '])
  windows 2 p ++
    (if p.length ≤ 3 then [p]
     else windows 3 p ++ (if p.length ≤ 4 then [p] else windows 4 p))

/-- All `char_wb` n-grams of one document. -/
def docNgrams (doc : List Char) : List (List Char) :=
  (splitWords doc).flatMap wordNgrams

/-- Frequency-then-name order used when the vocabulary must be capped. -/
def moreFrequent (grams : List (List Char)) (a b : List Char) : Bool :=
  if grams.count a == grams.count b then leChars a b
  else decide (grams.count b < grams.count a)

/-- Fitted TF-IDF vocabulary: the distinct n-grams of the corpus in sorted
order, capped at `TFIDF_MAX_FEATURES` by descending total count (the cap
branch models scikit-learn's `max_features` selection; ties are resolved by
term order, which no claim depends on). -/
def fitVocab (docs : List String) : List (List Char) :=
  let grams := docs.flatMap (fun d => docNgrams d.toList)
  let terms := sortByB leChars grams.dedup
  if terms.length ≤ TFIDF_MAX_FEATURES then terms
  else (sortByB (moreFrequent grams) terms).take TFIDF_MAX_FEATURES

/-- One row of the TF-IDF block: the per-vocabulary-term counts of the
document (the positions of the weights; see the header note on values). -/
def tfidfRow (vocab : List (List Char)) (doc : String) : List ℚ :=
  vocab.map (fun t => ((docNgrams doc.toList).count t : ℚ))

/-- Fitted vocabulary of a run. -/
def tfidfVocab (dados : List Registro) : List (List Char) :=
  fitVocab ((prepare_dataset dados).map (fun r => r.descricao_norm))

/-- The amount-feature slot (the source stores `log1p(|valor|)`; the
logarithm is float-valued and unmodelled, the slot carries `|valor|`, and no
claim reads the value — only that the block is one column wide). -/
def valorFeature (r : PreparedRow) : ℚ := |r.valor|

/-- Combined feature matrix `X_full`: per prepared row the horizontal
concatenation [TF-IDF block | bank one-hot block | amount block], mirroring
the source's `hstack([...])` column order. -/
def X_full (dados : List Registro) : List (List ℚ) :=
  (prepare_dataset dados).map fun r =>
    tfidfRow (tfidfVocab dados) r.descricao_norm ++
      (List.map (fun x : Nat => (x : ℚ)) (encode_banco r.banco BANCOS_CONHECIDOS) ++
        [valorFeature r])

/-- `n_features` of the source: the reported total column count. -/
def nFeatures (dados : List Registro) : Nat :=
  (tfidfVocab dados).length + BANCOS_CONHECIDOS.length + 1

/-- Observable effects of `main`, in program order. -/
inductive Ev where
  | exitCode (code : Nat)
  | builtFeatures
  | wrote (name : String)
deriving DecidableEq

/-- Effect trace of `main` on the fetched records: the minimum-sample check
exits with status 1 before dataset preparation, feature engineering or any
file write; otherwise features are built, then the vocabulary, the ONNX
models (PJ/PF only when trained), the label maps and the training report
are written in source order and the process completes with status 0. -/
def mainEvents (dados : List Registro) : List Ev :=
  if dados.length < MIN_TOTAL_SAMPLES then [Ev.exitCode 1]
  else
    Ev.builtFeatures ::
    Ev.wrote "vocabulary.json" ::
    Ev.wrote "categorizer_tipo.onnx" ::
    ((if pjTrained dados then [Ev.wrote "categorizer_pj.onnx"] else []) ++
      ((if pfTrained dados then [Ev.wrote "categorizer_pf.onnx"] else []) ++
        [Ev.wrote "label_maps.json", Ev.wrote "training_report.json", Ev.exitCode 0]))

/-- Does the list begin with a digit? -/
def headDigit : List Char → Bool
  | [] => false
  | c :: _ => c.isDigit

/-- Does the list begin with Python whitespace? -/
def headSpace : List Char → Bool
  | [] => false
  | c :: _ => isPySpace c

/-- Is the character a precomposed accented Latin letter of the modelled
set?  (The characters the source's NFD step decomposes.) -/
def isAccented (c : Char) : Bool := (nfdTable.find? (fun e => e.1 == c)).isSome

/-- A character that survives normalization unchanged by a second pass:
not accented, not a combining mark, and fixed by uppercasing. -/
def cleanChar (c : Char) : Bool :=
  (nfdTable.find? (fun e => e.1 == c)).isNone && !isMark c && (upperChar c == c)

/-- Well-collapsed text: every whitespace character is a single literal
space not preceded by whitespace (`b` records whether the previous character
was whitespace). -/
def collOk : Bool → List Char → Bool
  | _, [] => true
  | b, c :: cs =>
    if isPySpace c then (c == ' ') && !b && collOk true cs
    else collOk false cs

/-- Fixed sample record used by concrete witnesses. -/
def sampleRegistro : Registro :=
  { descricao := "ALFA", categoria := some "X", tipo := some "PJ",
    banco := none, valor := 10, metodo := some "manual" }

/-- PJ record of the two-threshold counterexample dataset. -/
def regPJX : Registro := sampleRegistro

/-- First PF record of the counterexample dataset. -/
def regPFA : Registro :=
  { sampleRegistro with tipo := some "PF", categoria := some "A" }

/-- Second PF record of the counterexample dataset. -/
def regPFB : Registro :=
  { sampleRegistro with tipo := some "PF", categoria := some "B" }

/-- Dataset with 12 PJ rows of a single category and 38 PF rows of two
categories: large enough to train, PJ passes the row threshold but not the
label-diversity threshold. -/
def datasetC2 : List Registro :=
  List.replicate 12 regPJX ++ (List.replicate 19 regPFA ++ List.replicate 19 regPFB)


theorem mapConstZero {α : Type} (bs : List α) :
    bs.map (fun _ => (0 : Nat)) = List.replicate bs.length 0 := by
  induction bs with
  | nil => rfl
  | cons b bs ih => simp [ih, List.replicate_succ]

theorem length_encodeLoop (norm : List Char) (bs : List String) :
    (encodeLoop norm bs).length = bs.length := by
  induction bs with
  | nil => rfl
  | cons b bs ih =>
    simp only [encodeLoop]
    split
    · simp
    · simp [ih]

theorem onehotZero (n : Nat) :
    (List.range (n + 1)).map (fun j => if j = 0 then (1 : Nat) else 0) =
      1 :: List.replicate n 0 := by
  rw [List.range_succ_eq_map, List.map_cons]
  simp only [if_pos rfl, List.map_map]
  congr 1
  have h : ∀ j ∈ List.range n,
      ((fun j => if j = 0 then (1 : Nat) else 0) ∘ (· + 1)) j = (fun _ => (0 : Nat)) j := by
    intro j _
    simp [Function.comp]
  rw [List.map_congr_left h, mapConstZero, List.length_range]

theorem onehotSucc (n i : Nat) :
    (List.range (n + 1)).map (fun j => if j = i + 1 then (1 : Nat) else 0) =
      0 :: (List.range n).map (fun j => if j = i then 1 else 0) := by
  rw [List.range_succ_eq_map, List.map_cons]
  simp only [List.map_map]
  congr 1
  apply List.map_congr_left
  intro j _
  simp [Function.comp]

theorem encodeLoop_eq_spec (norm : List Char) (bs : List String) :
    encodeLoop norm bs =
      match firstMatchIdx norm bs with
      | some i => (List.range bs.length).map (fun j => if j = i then 1 else 0)
      | none => List.replicate bs.length 0 := by
  induction bs with
  | nil => rfl
  | cons b bs ih =>
    simp only [encodeLoop, firstMatchIdx, List.length_cons]
    split
    next hb =>
      simp only [mapConstZero, onehotZero]
    next hb =>
      rw [ih]
      cases hfi : firstMatchIdx norm bs with
      | none => simp [List.replicate_succ]
      | some i => simp [onehotSucc]

theorem encode_banco_eq_spec (banco : Option String) (bs : List String) :
    encode_banco banco bs = encode_banco_spec banco bs := by
  simp only [encode_banco, encode_banco_spec]
  exact encodeLoop_eq_spec _ bs

theorem countP_encodeLoop (norm : List Char) (bs : List String) :
    (encodeLoop norm bs).countP (fun x => x != 0) ≤ 1 := by
  induction bs with
  | nil => simp [encodeLoop]
  | cons b bs ih =>
    simp only [encodeLoop]
    split
    · rw [List.countP_cons]
      have hz : (bs.map (fun _ => (0 : Nat))).countP (fun x => x != 0) = 0 := by
        rw [mapConstZero]
        induction bs.length with
        | zero => rfl
        | succ m ihm => simp [List.replicate_succ, List.countP_cons, ihm]
      simp [hz]
    · rw [List.countP_cons]
      simpa using ih

theorem mem_encodeLoop (norm : List Char) (bs : List String) :
    ∀ x ∈ encodeLoop norm bs, x = 0 ∨ x = 1 := by
  induction bs with
  | nil => simp [encodeLoop]
  | cons b bs ih =>
    simp only [encodeLoop]
    split
    · intro x hx
      rcases List.mem_cons.mp hx with h1 | h2
      · right; exact h1
      · left
        rcases List.mem_map.mp h2 with ⟨_, _, hco⟩
        exact hco.symm
    · intro x hx
      rcases List.mem_cons.mp hx with h1 | h2
      · left; exact h1
      · exact ih x h2

/-- Claim C5 (confirmed): for every input bank string the bank-encoding
function agrees with the spec's first-match reading — a single 1 at the
index of the first known bank name (in fixed list order) occurring as a
substring of the diacritic-stripped uppercased bank text, or all zeros when
none occurs — hence every entry is 0 or 1 and at most one entry is
non-zero. -/
theorem encode_banco_one_hot :
    ∀ (banco : Option String) (bancos : List String),
      encode_banco banco bancos = encode_banco_spec banco bancos ∧
      (encode_banco banco bancos).countP (fun x => x != 0) ≤ 1 ∧
      ∀ x ∈ encode_banco banco bancos, x = 0 ∨ x = 1 := by
  intro banco bancos
  exact ⟨encode_banco_eq_spec banco bancos, countP_encodeLoop _ _, mem_encodeLoop _ _⟩

/-- Claim C10 (corrected), counterexample: a bank key absent from the
record reaches `encode_banco` as the float NaN of the pandas frame; NaN is
truthy, so the `or "desconhecido"` fallback does not fire and `.upper()`
raises AttributeError — the function fails instead of returning the
all-zero vector. -/
theorem encode_banco_absent_fails :
    encode_banco_cell BancoCell.nan BANCOS_CONHECIDOS =
      Except.error "AttributeError" := rfl

/-- Claim C10 (amended): a JSON-null or empty bank field is replaced by the
placeholder "desconhecido", no known bank name occurs in it, and the
encoding is the all-zero vector; but a bank key absent from the record is
the truthy pandas NaN, so the fallback does not fire and the function
raises AttributeError for every bank list rather than producing a
vector. -/
theorem encode_banco_missing_field :
    (∀ bancos : List String,
      encode_banco_cell BancoCell.nan bancos = Except.error "AttributeError") ∧
    encode_banco_cell BancoCell.pynone BANCOS_CONHECIDOS =
      Except.ok (List.replicate 11 0) ∧
    encode_banco_cell (BancoCell.str "") BANCOS_CONHECIDOS =
      Except.ok (List.replicate 11 0) ∧
    bancoOrDefault none = "desconhecido" ∧
    encode_banco none BANCOS_CONHECIDOS = List.replicate 11 0 ∧
    encode_banco (some "") BANCOS_CONHECIDOS = List.replicate 11 0 :=
  ⟨fun _ => rfl, rfl, rfl, rfl, by decide, by decide⟩

/-- Claim C1 (corrected), counterexample: on the spec's scenario-C input the
normalization function does not return "GATEWAY*LOJA" — the digits attached
to "LOJA" have no leading word boundary and survive. -/
theorem normalize_scenarioC_ne :
    normalize_description "PAG*LOJA123 12/05 4567890123" ≠ "GATEWAY*LOJA" := by
  decide

/-- Claim C1 (corrected), amended: the input "PAG*LOJA123 12/05 4567890123"
normalizes to "GATEWAY*LOJA123": the gateway prefix is rewritten, the inline
date and the standalone ten-digit run are removed and whitespace is
collapsed and trimmed, but the trailing "123" of "LOJA123" is kept (a digit
run directly attached to letters has no word boundary). -/
theorem normalize_scenarioC :
    normalize_description "PAG*LOJA123 12/05 4567890123" = "GATEWAY*LOJA123" := by
  decide

/-- Claim C4 (confirmed): when the endpoint returns fewer than
`MIN_TOTAL_SAMPLES` records the run's whole effect trace is the single
non-zero exit — no file is written and no feature engineering happens. -/
theorem main_exits_on_few_samples :
    ∀ dados : List Registro, dados.length < MIN_TOTAL_SAMPLES →
      mainEvents dados = [Ev.exitCode 1] ∧
      (∀ name : String, Ev.wrote name ∉ mainEvents dados) ∧
      Ev.builtFeatures ∉ mainEvents dados := by
  intro dados h
  have he : mainEvents dados = [Ev.exitCode 1] := by
    simp [mainEvents, h]
  refine ⟨he, ?_, ?_⟩
  · intro name
    rw [he]
    simp
  · rw [he]
    simp

/-- Claim C4 witness: a 49-record response exits with status 1 and nothing
else. -/
theorem main_exits_on_few_samples_witness :
    (List.replicate 49 sampleRegistro).length < MIN_TOTAL_SAMPLES ∧
      mainEvents (List.replicate 49 sampleRegistro) = [Ev.exitCode 1] :=
  ⟨by decide, (main_exits_on_few_samples (List.replicate 49 sampleRegistro) (by decide)).1⟩

theorem normTipo_valid (t : Option String) : normTipo t = "PJ" ∨ normTipo t = "PF" := by
  cases t with
  | none => left; rfl
  | some t =>
    simp only [normTipo]
    split
    next h =>
      rcases Bool.or_eq_true_iff.mp h with h1 | h1
      · left; exact eq_of_beq h1
      · right; exact eq_of_beq h1
    next h => left; rfl

/-- Claim C9 (confirmed): during dataset preparation every record whose type
is not exactly "PJ" or "PF" (including an absent type) gets type "PJ"; the
row-retention test never consults the type, the prepared frame keeps exactly
the rows passing that test, and every prepared row's type is "PJ" or "PF". -/
theorem prepare_dataset_tipo_default :
    (∀ t : Option String, t ≠ some "PJ" → t ≠ some "PF" → normTipo t = "PJ") ∧
    (∀ (r : Registro) (t1 t2 : Option String),
      keepRow { r with tipo := t1 } = keepRow { r with tipo := t2 }) ∧
    (∀ dados : List Registro,
      (prepare_dataset dados).length = (dados.filter keepRow).length ∧
      ∀ p ∈ prepare_dataset dados, p.tipo = normTipo (some p.tipo) ∧
        (p.tipo = "PJ" ∨ p.tipo = "PF")) := by
  refine ⟨?_, ?_, ?_⟩
  · intro t h1 h2
    cases t with
    | none => rfl
    | some t =>
      simp only [normTipo]
      have hne1 : t ≠ "PJ" := fun he => h1 (by rw [he])
      have hne2 : t ≠ "PF" := fun he => h2 (by rw [he])
      simp [hne1, hne2]
  · intro r t1 t2
    rfl
  · intro dados
    constructor
    · simp [prepare_dataset]
    · intro p hp
      rcases List.mem_map.mp hp with ⟨r, _, hr⟩
      have htipo : p.tipo = normTipo r.tipo := by rw [← hr]
      rcases normTipo_valid r.tipo with h | h
      · rw [htipo, h]
        exact ⟨rfl, Or.inl rfl⟩
      · rw [htipo, h]
        exact ⟨rfl, Or.inr rfl⟩

/-- Claim C9 witness: a record with the unrecognized type "EMPRESA" is
normalized to "PJ". -/
theorem prepare_dataset_tipo_default_witness :
    (some "EMPRESA" : Option String) ≠ some "PJ" ∧
      normTipo (some "EMPRESA") = "PJ" :=
  ⟨by decide,
    prepare_dataset_tipo_default.1 (some "EMPRESA") (by decide) (by decide)⟩

theorem length_sortByB {α : Type} (le : α → α → Bool) (l : List α) :
    (sortByB le l).length = l.length := by
  have h : ∀ (x : α) (m : List α), (insSorted le x m).length = m.length + 1 := by
    intro x m
    induction m with
    | nil => rfl
    | cons b m ihm =>
      simp only [insSorted]
      split
      · simp
      · simp [ihm]
  induction l with
  | nil => rfl
  | cons a l ih =>
    simp only [sortByB, List.foldr_cons] at ih ⊢
    rw [h, ih, List.length_cons]

theorem length_encode_banco (banco : Option String) (bs : List String) :
    (encode_banco banco bs).length = bs.length := length_encodeLoop _ _

/-- Claim C7 (confirmed): every row of the combined feature matrix has
exactly (fitted TF-IDF vocabulary size) + (known-bank list length) + 1
columns, which is the `n_features` the source computes and reports. -/
theorem X_full_column_count :
    ∀ dados : List Registro,
      (X_full dados).all
        (fun row => row.length ==
          (tfidfVocab dados).length + BANCOS_CONHECIDOS.length + 1) = true ∧
      nFeatures dados = (tfidfVocab dados).length + BANCOS_CONHECIDOS.length + 1 := by
  intro dados
  refine ⟨?_, rfl⟩
  rw [List.all_eq_true]
  intro row hrow
  rcases List.mem_map.mp hrow with ⟨r, _, hr⟩
  have hlen : row.length = (tfidfVocab dados).length + BANCOS_CONHECIDOS.length + 1 := by
    rw [← hr]
    simp only [List.length_append, tfidfRow, List.length_map, length_encode_banco,
      List.length_cons, List.length_nil]
    omega
  simp [hlen]

theorem pjLabels_ne_nil_iff (dados : List Registro) :
    pjLabels dados ≠ [] ↔ 10 ≤ (dfPJ dados).length := by
  simp only [pjLabels]
  split
  next h =>
    have h1 : dfPJ dados ≠ [] := by
      intro he
      rw [he] at h
      simp at h
    have h2 : ((dfPJ dados).map (fun r => r.categoria)).dedup ≠ [] := by
      rw [Ne, List.dedup_eq_nil, List.map_eq_nil_iff]
      exact h1
    have h3 : sortByB leString ((dfPJ dados).map (fun r => r.categoria)).dedup ≠ [] := by
      intro he
      apply h2
      have hc := congrArg List.length he
      rw [length_sortByB] at hc
      exact List.length_eq_zero.mp hc
    simp [h, h3]
  next h =>
    simp [h]

theorem pfLabels_ne_nil_iff (dados : List Registro) :
    pfLabels dados ≠ [] ↔ 10 ≤ (dfPF dados).length := by
  simp only [pfLabels]
  split
  next h =>
    have h1 : dfPF dados ≠ [] := by
      intro he
      rw [he] at h
      simp at h
    have h2 : ((dfPF dados).map (fun r => r.categoria)).dedup ≠ [] := by
      rw [Ne, List.dedup_eq_nil, List.map_eq_nil_iff]
      exact h1
    have h3 : sortByB leString ((dfPF dados).map (fun r => r.categoria)).dedup ≠ [] := by
      intro he
      apply h2
      have hc := congrArg List.length he
      rw [length_sortByB] at hc
      exact List.length_eq_zero.mp hc
    simp [h, h3]
  next h =>
    simp [h]

/-- Claim C2 (corrected), amended: a sub-model's category-label list in the
label-map and report artifacts is non-empty exactly when that sub-model kept
at least 10 rows after rare-category filtering; the label-diversity
threshold has no effect on the artifacts (a sub-model skipped for having a
single distinct label still contributes its non-empty singleton list), and
the report's class lists coincide with the label map's. -/
theorem labelMaps_nonempty_iff :
    ∀ dados : List Registro,
      ((labelMaps dados).pj ≠ [] ↔ 10 ≤ (dfPJ dados).length) ∧
      ((labelMaps dados).pf ≠ [] ↔ 10 ≤ (dfPF dados).length) ∧
      (trainingReportClasses dados).pj = (labelMaps dados).pj ∧
      (trainingReportClasses dados).pf = (labelMaps dados).pf := by
  intro dados
  exact ⟨pjLabels_ne_nil_iff dados, pfLabels_ne_nil_iff dados, rfl, rfl⟩

/-- Claim C2 (corrected), counterexample: `datasetC2` has 50 records and 12
surviving PJ rows all of category "X" — the PJ sub-model fails the
label-diversity threshold and is skipped, yet its label list in both
artifacts is the non-empty ["X"], contradicting the claimed equivalence. -/
theorem labelMaps_skipped_nonempty :
    MIN_TOTAL_SAMPLES ≤ datasetC2.length ∧
    pjTrained datasetC2 = false ∧
    (labelMaps datasetC2).pj = ["X"] ∧
    (trainingReportClasses datasetC2).pj = ["X"] :=
  ⟨by decide, by decide, by decide, by decide⟩

theorem matchSub_gwDL (r : List Char) : matchSub ['D','L'] false (gwRepl ++ r) = none := rfl

theorem matchSub_gwMP (r : List Char) : matchSub ['M','P'] true (gwRepl ++ r) = none := rfl

theorem matchSub_gwPAG (r : List Char) : matchSub ['P','A','G'] false (gwRepl ++ r) = none := rfl

theorem matchSub_gwIFD (r : List Char) : matchSub ['I','F','D'] false (gwRepl ++ r) = none := rfl

theorem matchSub_gwEC (r : List Char) : matchSub ['E','C'] true (gwRepl ++ r) = none := rfl

theorem matchSub_gwEBN (r : List Char) : matchSub ['E','B','N'] false (gwRepl ++ r) = none := rfl

theorem matchSub_gwPG (r : List Char) : matchSub ['P','G'] true (gwRepl ++ r) = none := rfl

theorem matchSub_gwPICPAY (r : List Char) :
    matchSub ['P','I','C','P','A','Y'] false (gwRepl ++ r) = none := rfl

theorem gatewayFired_le_one (l : List Char) : gatewayFired l ≤ 1 := by
  simp only [gatewayFired]
  cases h1 : matchSub ['D','L'] false l with
  | some r =>
    simp [applySub, h1, matchSub_gwDL, matchSub_gwMP, matchSub_gwPAG, matchSub_gwIFD,
      matchSub_gwEC, matchSub_gwEBN, matchSub_gwPG, matchSub_gwPICPAY]
  | none =>
    simp only [applySub, h1, Option.isSome_none]
    cases h2 : matchSub ['M','P'] true l with
    | some r =>
      simp [applySub, h2, matchSub_gwDL, matchSub_gwMP, matchSub_gwPAG, matchSub_gwIFD,
        matchSub_gwEC, matchSub_gwEBN, matchSub_gwPG, matchSub_gwPICPAY]
    | none =>
      simp only [applySub, h2, Option.isSome_none]
      cases h3 : matchSub ['P','A','G'] false l with
      | some r =>
        simp [applySub, h3, matchSub_gwDL, matchSub_gwMP, matchSub_gwPAG, matchSub_gwIFD,
          matchSub_gwEC, matchSub_gwEBN, matchSub_gwPG, matchSub_gwPICPAY]
      | none =>
        simp only [applySub, h3, Option.isSome_none]
        cases h4 : matchSub ['I','F','D'] false l with
        | some r =>
          simp [applySub, h4, matchSub_gwDL, matchSub_gwMP, matchSub_gwPAG, matchSub_gwIFD,
            matchSub_gwEC, matchSub_gwEBN, matchSub_gwPG, matchSub_gwPICPAY]
        | none =>
          simp only [applySub, h4, Option.isSome_none]
          cases h5 : matchSub ['E','C'] true l with
          | some r =>
            simp [applySub, h5, matchSub_gwDL, matchSub_gwMP, matchSub_gwPAG, matchSub_gwIFD,
              matchSub_gwEC, matchSub_gwEBN, matchSub_gwPG, matchSub_gwPICPAY]
          | none =>
            simp only [applySub, h5, Option.isSome_none]
            cases h6 : matchSub ['E','B','N'] false l with
            | some r =>
              simp [applySub, h6, matchSub_gwDL, matchSub_gwMP, matchSub_gwPAG,
                matchSub_gwIFD, matchSub_gwEC, matchSub_gwEBN, matchSub_gwPG,
                matchSub_gwPICPAY]
            | none =>
              simp only [applySub, h6, Option.isSome_none]
              cases h7 : matchSub ['P','G'] true l with
              | some r =>
                simp [applySub, h7, matchSub_gwDL, matchSub_gwMP, matchSub_gwPAG,
                  matchSub_gwIFD, matchSub_gwEC, matchSub_gwEBN, matchSub_gwPG,
                  matchSub_gwPICPAY]
              | none =>
                simp only [applySub, h7, Option.isSome_none]
                cases h8 : matchSub ['P','I','C','P','A','Y'] false l with
                | some r => simp [h8]
                | none => simp [h8]

/-- Claim C6 (confirmed): the eight gateway-prefix rules, applied in the
source's fixed order, are mutually exclusive — on every input at most one of
them fires during the sequential rewrite, and no later pattern matches the
"GATEWAY*"-prefixed text produced by an earlier rule. -/
theorem gateway_rules_exclusive :
    ∀ l : List Char,
      gatewayFired l ≤ 1 ∧
      (∀ rest : List Char,
        matchSub ['D','L'] false (gwRepl ++ rest) = none ∧
        matchSub ['M','P'] true (gwRepl ++ rest) = none ∧
        matchSub ['P','A','G'] false (gwRepl ++ rest) = none ∧
        matchSub ['I','F','D'] false (gwRepl ++ rest) = none ∧
        matchSub ['E','C'] true (gwRepl ++ rest) = none ∧
        matchSub ['E','B','N'] false (gwRepl ++ rest) = none ∧
        matchSub ['P','G'] true (gwRepl ++ rest) = none ∧
        matchSub ['P','I','C','P','A','Y'] false (gwRepl ++ rest) = none) := by
  intro l
  exact ⟨gatewayFired_le_one l, fun rest =>
    ⟨matchSub_gwDL rest, matchSub_gwMP rest, matchSub_gwPAG rest, matchSub_gwIFD rest,
      matchSub_gwEC rest, matchSub_gwEBN rest, matchSub_gwPG rest, matchSub_gwPICPAY rest⟩⟩

theorem digit_isWordChar (c : Char) (h : c.isDigit = true) : isWordChar c = true := by
  simp only [Char.isDigit, Bool.and_eq_true, decide_eq_true_eq] at h
  simp only [isWordChar, Bool.or_eq_true, Bool.and_eq_true, decide_eq_true_eq]
  exact Or.inl (Or.inr ⟨Char.le_def.mpr h.1, Char.le_def.mpr h.2⟩)

theorem space_not_word (c : Char) (h : isPySpace c = true) : isWordChar c = false := by
  simp only [isPySpace, Bool.or_eq_true, beq_iff_eq] at h
  rcases h with ((((h | h) | h) | h) | h) | h <;> subst h <;> decide

theorem space_not_digit (c : Char) (h : isPySpace c = true) : c.isDigit = false := by
  simp only [isPySpace, Bool.or_eq_true, beq_iff_eq] at h
  rcases h with ((((h | h) | h) | h) | h) | h <;> subst h <;> decide

theorem dropWhile_eq_drop_len {p : Char → Bool} :
    ∀ l : List Char, l.dropWhile p = l.drop (l.takeWhile p).length := by
  intro l
  induction l with
  | nil => rfl
  | cons c cs ih =>
    by_cases h : p c
    · simp [List.dropWhile_cons, List.takeWhile_cons, h, ih]
    · simp [List.dropWhile_cons, List.takeWhile_cons, h]

theorem remRunsA_succ : ∀ (k : Nat) (l : List Char) (b : Bool),
    remRunsA (k + 1) b l = remRunsA 0 true (l.drop (k + 1)) := by
  intro k
  induction k with
  | zero =>
    intro l b
    cases l with
    | nil => rfl
    | cons c cs => rfl
  | succ k ih =>
    intro l b
    cases l with
    | nil => simp [remRunsA]
    | cons c cs =>
      show remRunsA (k + 1) true cs = _
      rw [ih cs true]
      rfl

theorem remDatesA_succ : ∀ (k : Nat) (l : List Char) (b : Bool),
    remDatesA (k + 1) b l = remDatesA 0 true (l.drop (k + 1)) := by
  intro k
  induction k with
  | zero =>
    intro l b
    cases l with
    | nil => rfl
    | cons c cs => rfl
  | succ k ih =>
    intro l b
    cases l with
    | nil => simp [remDatesA]
    | cons c cs =>
      show remDatesA (k + 1) true cs = _
      rw [ih cs true]
      rfl

theorem remRunsA_skipAll : ∀ (cs : List Char),
    remRunsA (cs.takeWhile Char.isDigit).length true cs =
      remRunsA 0 true (cs.dropWhile Char.isDigit) := by
  intro cs
  induction cs with
  | nil => rfl
  | cons c cs ih =>
    by_cases h : c.isDigit
    · rw [List.takeWhile_cons, if_pos h, List.dropWhile_cons, if_pos h, List.length_cons]
      show remRunsA (List.takeWhile Char.isDigit cs).length true cs = _
      exact ih
    · rw [List.takeWhile_cons, if_neg h, List.dropWhile_cons, if_neg h]
      rfl

/-- Delete branch of the digit-run scanner: a standalone long run is skipped
whole and scanning resumes after it. -/
theorem remRunsA_delete (c : Char) (cs : List Char) (hc : c.isDigit = true)
    (hl : longRunAt (c :: cs) = true) :
    remRunsA 0 false (c :: cs) = remRunsA 0 true ((c :: cs).dropWhile Char.isDigit) := by
  show (if !false && c.isDigit && longRunAt (c :: cs) then
      remRunsA (((c :: cs).takeWhile Char.isDigit).length - 1) true cs
    else c :: remRunsA 0 (isWordChar c) cs) = _
  rw [if_pos (by simp [hc, hl])]
  rw [List.takeWhile_cons, if_pos hc, List.length_cons, List.dropWhile_cons, if_pos hc,
    Nat.add_sub_cancel]
  exact remRunsA_skipAll cs

/-- Emit branch of the digit-run scanner. -/
theorem remRunsA_emit (c : Char) (cs : List Char) (b : Bool)
    (h : (!b && c.isDigit && longRunAt (c :: cs)) = false) :
    remRunsA 0 b (c :: cs) = c :: remRunsA 0 (isWordChar c) cs := by
  show (if !b && c.isDigit && longRunAt (c :: cs) then
      remRunsA (((c :: cs).takeWhile Char.isDigit).length - 1) true cs
    else c :: remRunsA 0 (isWordChar c) cs) = _
  rw [if_neg (by simp [h])]

/-- Step equation of the digit-run search scanner. -/
theorem hasRunA_cons (c : Char) (cs : List Char) (b : Bool) :
    hasRunA b (c :: cs) =
      if !b && c.isDigit && longRunAt (c :: cs) then true
      else hasRunA (isWordChar c) cs := rfl

/-- Step equation of the date scanners. -/
theorem remDatesA_cons (c : Char) (cs : List Char) (b : Bool) :
    remDatesA 0 b (c :: cs) =
      match (if !b then dateAt (c :: cs) else none) with
      | some n => remDatesA (n - 1) true cs
      | none => c :: remDatesA 0 (isWordChar c) cs := rfl

theorem hasDateA_cons (c : Char) (cs : List Char) (b : Bool) :
    hasDateA b (c :: cs) =
      if !b && (dateAt (c :: cs)).isSome then true
      else hasDateA (isWordChar c) cs := rfl

theorem hasRunA_flag (x : List Char) (h : headDigit x = false) (b b' : Bool) :
    hasRunA b x = hasRunA b' x := by
  cases x with
  | nil => rfl
  | cons c cs =>
    simp only [headDigit] at h
    rw [hasRunA_cons, hasRunA_cons, if_neg (by simp [h]), if_neg (by simp [h])]

theorem remRunsA_true_digits : ∀ cs : List Char,
    remRunsA 0 true cs =
      cs.takeWhile Char.isDigit ++ remRunsA 0 true (cs.dropWhile Char.isDigit) := by
  intro cs
  induction cs with
  | nil => rfl
  | cons c cs ih =>
    by_cases h : c.isDigit
    · rw [remRunsA_emit c cs true (by simp), List.takeWhile_cons, if_pos h,
        List.dropWhile_cons, if_pos h, digit_isWordChar c h, ih, List.cons_append]
    · rw [List.takeWhile_cons, if_neg h, List.dropWhile_cons, if_neg h, List.nil_append]

theorem takeWhile_digits_append (tw R : List Char) (h1 : tw.all Char.isDigit = true)
    (h2 : headDigit R = false) :
    (tw ++ R).takeWhile Char.isDigit = tw ∧ (tw ++ R).dropWhile Char.isDigit = R := by
  induction tw with
  | nil =>
    simp only [List.nil_append]
    cases R with
    | nil => exact ⟨rfl, rfl⟩
    | cons r rs =>
      simp only [headDigit] at h2
      rw [List.takeWhile_cons, if_neg (by simp [h2]), List.dropWhile_cons,
        if_neg (by simp [h2])]
      exact ⟨rfl, rfl⟩
  | cons t tw ih =>
    simp only [List.all_cons, Bool.and_eq_true] at h1
    have := ih h1.2
    rw [List.cons_append, List.takeWhile_cons, if_pos h1.1, List.dropWhile_cons,
      if_pos h1.1, this.1, this.2]
    exact ⟨rfl, rfl⟩

theorem all_takeWhile_digits (cs : List Char) :
    (cs.takeWhile Char.isDigit).all Char.isDigit = true := by
  rw [List.all_eq_true]
  intro c hc
  exact List.mem_takeWhile_imp hc

theorem remRunsA_head_nondigit (x : List Char) (b : Bool) (h : headDigit x = false) :
    headIsWord (remRunsA 0 b x) = headIsWord x ∧ headDigit (remRunsA 0 b x) = false := by
  cases x with
  | nil => exact ⟨rfl, rfl⟩
  | cons c cs =>
    simp only [headDigit] at h
    rw [remRunsA_emit c cs b (by simp [h])]
    exact ⟨rfl, h⟩

theorem length_dropWhileMono (p : Char → Bool) (l : List Char) :
    (l.dropWhile p).length ≤ l.length := by
  rw [dropWhile_eq_drop_len, List.length_drop]
  omega

theorem headDigit_dropWhile : ∀ l : List Char,
    headDigit (l.dropWhile Char.isDigit) = false := by
  intro l
  induction l with
  | nil => rfl
  | cons c cs ih =>
    by_cases h : c.isDigit
    · rw [List.dropWhile_cons, if_pos h]
      exact ih
    · rw [List.dropWhile_cons, if_neg h]
      simpa [headDigit] using h

/-- A failed standalone-run test at a digit survives the removal of later
long runs: the scan after the digit preserves the leading digit block and
the word-class of the character after it. -/
theorem longRunAt_remRuns (c : Char) (cs : List Char) (hc : c.isDigit = true) :
    longRunAt (c :: remRunsA 0 true cs) = longRunAt (c :: cs) := by
  have hhdw := headDigit_dropWhile cs
  have hhead := remRunsA_head_nondigit (cs.dropWhile Char.isDigit) true hhdw
  have happ := takeWhile_digits_append (cs.takeWhile Char.isDigit)
    (remRunsA 0 true (cs.dropWhile Char.isDigit)) (all_takeWhile_digits cs) hhead.2
  rw [remRunsA_true_digits cs]
  simp only [longRunAt, List.takeWhile_cons, if_pos hc, List.dropWhile_cons, if_pos hc,
    happ.1, happ.2, hhead.1]

theorem hasRun_remRuns_aux : ∀ n : Nat, ∀ l : List Char, l.length ≤ n →
    ∀ b : Bool, hasRunA b (remRunsA 0 b l) = false := by
  intro n
  induction n with
  | zero =>
    intro l hl b
    have : l = [] := List.length_eq_zero.mp (Nat.le_zero.mp hl)
    subst this
    rfl
  | succ n ih =>
    intro l hl b
    cases l with
    | nil => rfl
    | cons c cs =>
      have hcs : cs.length ≤ n := by
        simp only [List.length_cons] at hl
        omega
      by_cases hdel : (!b && c.isDigit && longRunAt (c :: cs)) = true
      · have hb : b = false := by
          rcases Bool.and_eq_true_iff.mp hdel with ⟨h1, _⟩
          rcases Bool.and_eq_true_iff.mp h1 with ⟨h2, _⟩
          simpa using h2
        have hc : c.isDigit = true := by
          rcases Bool.and_eq_true_iff.mp hdel with ⟨h1, _⟩
          exact (Bool.and_eq_true_iff.mp h1).2
        have hrun : longRunAt (c :: cs) = true := (Bool.and_eq_true_iff.mp hdel).2
        subst hb
        rw [remRunsA_delete c cs hc hrun]
        have hrl : ((c :: cs).dropWhile Char.isDigit).length ≤ n := by
          rw [List.dropWhile_cons, if_pos hc]
          exact le_trans (length_dropWhileMono _ _) hcs
        have hhd : headDigit ((c :: cs).dropWhile Char.isDigit) = false :=
          headDigit_dropWhile _
        rw [hasRunA_flag _ (remRunsA_head_nondigit _ true hhd).2 false true]
        exact ih _ hrl true
      · have hdel' : (!b && c.isDigit && longRunAt (c :: cs)) = false :=
          Bool.not_eq_true _ ▸ eq_false_of_ne_true hdel
        rw [remRunsA_emit c cs b hdel', hasRunA_cons]
        have hcond : (!b && c.isDigit && longRunAt (c :: remRunsA 0 (isWordChar c) cs))
            = false := by
          by_cases hb : b = true
          · simp [hb]
          · have hb' : b = false := eq_false_of_ne_true hb
            subst hb'
            by_cases hc : c.isDigit = true
            · have hrun : longRunAt (c :: cs) = false := by
                simpa [hc] using hdel'
              rw [digit_isWordChar c hc, longRunAt_remRuns c cs hc]
              simp [hrun]
            · simp [eq_false_of_ne_true hc]
        rw [if_neg (by simp [hcond])]
        exact ih cs hcs (isWordChar c)

/-- The digit-run removal leaves no standalone long digit run behind. -/
theorem hasRun_remRuns (l : List Char) (b : Bool) :
    hasRunA b (remRunsA 0 b l) = false :=
  hasRun_remRuns_aux l.length l (le_refl _) b

/-- A string without standalone long digit runs is untouched by the
digit-run removal. -/
theorem remRunsA_noop : ∀ l : List Char, ∀ b : Bool,
    hasRunA b l = false → remRunsA 0 b l = l := by
  intro l
  induction l with
  | nil => intro b _; rfl
  | cons c cs ih =>
    intro b h
    rw [hasRunA_cons] at h
    by_cases hcond : (!b && c.isDigit && longRunAt (c :: cs)) = true
    · rw [if_pos hcond] at h
      exact absurd h (by simp)
    · have hcond' := eq_false_of_ne_true hcond
      rw [if_neg (by simp [hcond'])] at h
      rw [remRunsA_emit c cs b hcond', ih (isWordChar c) h]

theorem dateAt_none_head_nondigit (c : Char) (cs : List Char) (hc : c.isDigit = false) :
    dateAt (c :: cs) = none := by
  rcases cs with _ | ⟨a, _ | ⟨b, _ | ⟨d, _ | ⟨e, r⟩⟩⟩⟩ <;> simp [dateAt, hc]

theorem headSlash_cases (rest : List Char) (h : headSlash rest = true) :
    ∃ rest2, rest = '/' :: rest2 := by
  cases rest with
  | nil => exact absurd h (by simp [headSlash])
  | cons c cs =>
    simp only [headSlash, beq_iff_eq] at h
    exact ⟨cs, by rw [h]⟩

/-- Structure of a date match: four digits around a slash, followed either
by a trailing boundary (length-5 match) or by a slash and a 2–4 digit year
run with a trailing boundary (length 6+k match). -/
theorem dateAt_some_cases (l : List Char) (m : Nat) (h : dateAt l = some m) :
    ∃ d1 d2 d3 d4 rest, l = d1 :: d2 :: '/' :: d3 :: d4 :: rest ∧
      d1.isDigit = true ∧ d2.isDigit = true ∧ d3.isDigit = true ∧ d4.isDigit = true ∧
      ((m = 5 ∧ headIsWord rest = false) ∨
        (∃ rest2, rest = '/' :: rest2 ∧
          m = 6 + (rest2.takeWhile Char.isDigit).length ∧
          2 ≤ (rest2.takeWhile Char.isDigit).length ∧
          (rest2.takeWhile Char.isDigit).length ≤ 4 ∧
          headIsWord (rest2.dropWhile Char.isDigit) = false)) := by
  rcases l with _ | ⟨d1, _ | ⟨d2, _ | ⟨s, _ | ⟨d3, _ | ⟨d4, rest⟩⟩⟩⟩⟩
  · exact absurd h (by simp [dateAt])
  · exact absurd h (by simp [dateAt])
  · exact absurd h (by simp [dateAt])
  · exact absurd h (by simp [dateAt])
  · exact absurd h (by simp [dateAt])
  · simp only [dateAt] at h
    by_cases hcond : (d1.isDigit && d2.isDigit && s == '/' && d3.isDigit && d4.isDigit) = true
    · rw [if_pos hcond] at h
      have hs : s = '/' := by
        rcases Bool.and_eq_true_iff.mp hcond with ⟨h1, _⟩
        rcases Bool.and_eq_true_iff.mp h1 with ⟨h2, _⟩
        rcases Bool.and_eq_true_iff.mp h2 with ⟨_, h3⟩
        exact eq_of_beq h3
      have hd1 : d1.isDigit = true := by
        rcases Bool.and_eq_true_iff.mp hcond with ⟨h1, _⟩
        rcases Bool.and_eq_true_iff.mp h1 with ⟨h2, _⟩
        rcases Bool.and_eq_true_iff.mp h2 with ⟨h4, _⟩
        exact (Bool.and_eq_true_iff.mp h4).1
      have hd2 : d2.isDigit = true := by
        rcases Bool.and_eq_true_iff.mp hcond with ⟨h1, _⟩
        rcases Bool.and_eq_true_iff.mp h1 with ⟨h2, _⟩
        rcases Bool.and_eq_true_iff.mp h2 with ⟨h4, _⟩
        exact (Bool.and_eq_true_iff.mp h4).2
      have hd3 : d3.isDigit = true := by
        rcases Bool.and_eq_true_iff.mp hcond with ⟨h1, _⟩
        exact (Bool.and_eq_true_iff.mp h1).2
      have hd4 : d4.isDigit = true := (Bool.and_eq_true_iff.mp hcond).2
      subst hs
      refine ⟨d1, d2, d3, d4, rest, rfl, hd1, hd2, hd3, hd4, ?_⟩
      by_cases hsl : headSlash rest = true
      · rw [if_pos hsl] at h
        rcases headSlash_cases rest hsl with ⟨rest2, hrest⟩
        subst hrest
        simp only [List.tail_cons] at h
        by_cases hc2 : (decide (2 ≤ (rest2.takeWhile Char.isDigit).length) &&
            decide ((rest2.takeWhile Char.isDigit).length ≤ 4) &&
            !headIsWord (rest2.dropWhile Char.isDigit)) = true
        · rw [if_pos hc2] at h
          simp only [Option.some_inj] at h
          rcases Bool.and_eq_true_iff.mp hc2 with ⟨hc3, hc4⟩
          rcases Bool.and_eq_true_iff.mp hc3 with ⟨hc5, hc6⟩
          exact Or.inr ⟨rest2, rfl, h.symm, of_decide_eq_true hc5, of_decide_eq_true hc6,
            by simpa using hc4⟩
        · rw [if_neg hc2] at h
          simp only [Option.some_inj] at h
          exact Or.inl ⟨h.symm, by simp only [headIsWord]; decide⟩
      · rw [if_neg hsl] at h
        by_cases hw : headIsWord rest = true
        · rw [if_pos hw] at h
          exact absurd h (by simp)
        · rw [if_neg hw] at h
          simp only [Option.some_inj] at h
          exact Or.inl ⟨h.symm, eq_false_of_ne_true hw⟩
    · rw [if_neg hcond] at h
      exact absurd h (by simp)

theorem dateAt_some_ge (l : List Char) (m : Nat) (h : dateAt l = some m) : 5 ≤ m := by
  rcases dateAt_some_cases l m h with ⟨_, _, _, _, _, _, _, _, _, _, hc⟩
  rcases hc with ⟨h5, _⟩ | ⟨_, _, h6, _, _, _⟩
  · omega
  · omega

theorem hasRunA_step (b : Bool) (c : Char) (cs : List Char)
    (h : hasRunA b (c :: cs) = false) : hasRunA (isWordChar c) cs = false := by
  rw [hasRunA_cons] at h
  by_cases hc : (!b && c.isDigit && longRunAt (c :: cs)) = true
  · rw [if_pos hc] at h
    exact absurd h (by simp)
  · rwa [if_neg (by simp [eq_false_of_ne_true hc])] at h

theorem hasRunA_digits_append : ∀ (tw : List Char), tw ≠ [] →
    tw.all Char.isDigit = true → ∀ (y : List Char) (b : Bool),
    hasRunA b (tw ++ y) = false → hasRunA true y = false := by
  intro tw
  induction tw with
  | nil => intro h; exact absurd rfl h
  | cons t tw ih =>
    intro _ hall y b h
    simp only [List.all_cons, Bool.and_eq_true] at hall
    rw [List.cons_append] at h
    have h2 := hasRunA_step b t (tw ++ y) h
    rw [digit_isWordChar t hall.1] at h2
    cases tw with
    | nil => exact h2
    | cons t2 tw2 => exact ih (by simp) hall.2 y true h2

/-- After a date match the scan resumes at a non-word character. -/
theorem headIsWord_after_date (l : List Char) (m : Nat) (h : dateAt l = some m) :
    headIsWord (l.drop m) = false := by
  rcases dateAt_some_cases l m h with ⟨d1, d2, d3, d4, rest, hl, _, _, _, _, hc⟩
  subst hl
  rcases hc with ⟨h5, hw⟩ | ⟨rest2, hr, hm, _, _, hw⟩
  · subst h5
    exact hw
  · subst hr
    subst hm
    have hd : (d1 :: d2 :: '/' :: d3 :: d4 :: '/' :: rest2).drop
        (6 + (rest2.takeWhile Char.isDigit).length) =
        rest2.drop (rest2.takeWhile Char.isDigit).length := by
      rw [← List.drop_drop]
      rfl
    rw [hd, ← dropWhile_eq_drop_len]
    exact hw

/-- A string without standalone long digit runs has none after a date match
either: the scan state at the resumption point is word-after. -/
theorem hasRun_after_date (l : List Char) (m : Nat) (b : Bool)
    (hda : dateAt l = some m) (h : hasRunA b l = false) :
    hasRunA true (l.drop m) = false := by
  rcases dateAt_some_cases l m hda with ⟨d1, d2, d3, d4, rest, hl, hd1, hd2, hd3, hd4, hc⟩
  subst hl
  have s1 := hasRunA_step b d1 _ h
  rw [digit_isWordChar d1 hd1] at s1
  have s2 := hasRunA_step true d2 _ s1
  rw [digit_isWordChar d2 hd2] at s2
  have s3 := hasRunA_step _ '/' _ s2
  have hsl : isWordChar '/' = false := by decide
  rw [hsl] at s3
  have s4 := hasRunA_step false d3 _ s3
  rw [digit_isWordChar d3 hd3] at s4
  have s5 := hasRunA_step true d4 _ s4
  rw [digit_isWordChar d4 hd4] at s5
  rcases hc with ⟨h5, _⟩ | ⟨rest2, hr, hm, hge, _, _⟩
  · subst h5
    exact s5
  · subst hr
    subst hm
    have s6 := hasRunA_step true '/' _ s5
    rw [hsl] at s6
    have hd : (d1 :: d2 :: '/' :: d3 :: d4 :: '/' :: rest2).drop
        (6 + (rest2.takeWhile Char.isDigit).length) =
        rest2.dropWhile Char.isDigit := by
      have hd6 : (d1 :: d2 :: '/' :: d3 :: d4 :: '/' :: rest2).drop 6 = rest2 := rfl
      rw [← List.drop_drop, hd6, ← dropWhile_eq_drop_len]
    rw [hd]
    have htw : rest2.takeWhile Char.isDigit ≠ [] := by
      intro he
      rw [he] at hge
      simp at hge
    have hsplit : rest2.takeWhile Char.isDigit ++ rest2.dropWhile Char.isDigit = rest2 :=
      List.takeWhile_append_dropWhile Char.isDigit rest2
    have := hasRunA_digits_append (rest2.takeWhile Char.isDigit) htw
      (all_takeWhile_digits rest2) (rest2.dropWhile Char.isDigit) false
    apply this
    rw [hsplit]
    exact s6

theorem remDatesA_true_cons (c : Char) (cs : List Char) :
    remDatesA 0 true (c :: cs) = c :: remDatesA 0 (isWordChar c) cs := rfl

theorem remDatesA_none_cons (c : Char) (cs : List Char)
    (h : dateAt (c :: cs) = none) (b : Bool) :
    remDatesA 0 b (c :: cs) = c :: remDatesA 0 (isWordChar c) cs := by
  cases b with
  | true => rfl
  | false =>
    rw [remDatesA_cons]
    simp only [Bool.not_false, if_true, h]

theorem remDatesA_some_cons (c : Char) (cs : List Char) (m : Nat)
    (h : dateAt (c :: cs) = some m) :
    remDatesA 0 false (c :: cs) = remDatesA 0 true ((c :: cs).drop m) := by
  have hm5 := dateAt_some_ge _ _ h
  obtain ⟨j, rfl⟩ : ∃ j, m = j + 2 := ⟨m - 2, by omega⟩
  rw [remDatesA_cons]
  simp only [Bool.not_false, if_true, h]
  have hj : j + 2 - 1 = j + 1 := by omega
  rw [hj, remDatesA_succ j cs true, List.drop_succ_cons]

theorem remDatesA_true_digits : ∀ cs : List Char,
    remDatesA 0 true cs =
      cs.takeWhile Char.isDigit ++ remDatesA 0 true (cs.dropWhile Char.isDigit) := by
  intro cs
  induction cs with
  | nil => rfl
  | cons c cs ih =>
    by_cases h : c.isDigit
    · rw [remDatesA_true_cons, List.takeWhile_cons, if_pos h, List.dropWhile_cons,
        if_pos h, digit_isWordChar c h, ih, List.cons_append]
    · rw [List.takeWhile_cons, if_neg h, List.dropWhile_cons, if_neg h, List.nil_append]

theorem remDatesA_head_nondigit (x : List Char) (b : Bool) (h : headDigit x = false) :
    headIsWord (remDatesA 0 b x) = headIsWord x ∧ headDigit (remDatesA 0 b x) = false := by
  cases x with
  | nil => exact ⟨rfl, rfl⟩
  | cons c cs =>
    simp only [headDigit] at h
    rw [remDatesA_none_cons c cs (dateAt_none_head_nondigit c cs h) b]
    exact ⟨rfl, h⟩

theorem longRunAt_remDates (c : Char) (cs : List Char) (hc : c.isDigit = true) :
    longRunAt (c :: remDatesA 0 true cs) = longRunAt (c :: cs) := by
  have hhdw := headDigit_dropWhile cs
  have hhead := remDatesA_head_nondigit (cs.dropWhile Char.isDigit) true hhdw
  have happ := takeWhile_digits_append (cs.takeWhile Char.isDigit)
    (remDatesA 0 true (cs.dropWhile Char.isDigit)) (all_takeWhile_digits cs) hhead.2
  rw [remDatesA_true_digits cs]
  simp only [longRunAt, List.takeWhile_cons, if_pos hc, List.dropWhile_cons, if_pos hc,
    happ.1, happ.2, hhead.1]

theorem nonword_nondigit (x : List Char) (h : headIsWord x = false) :
    headDigit x = false := by
  cases x with
  | nil => rfl
  | cons c cs =>
    simp only [headIsWord] at h
    simp only [headDigit]
    by_cases hc : c.isDigit = true
    · rw [digit_isWordChar c hc] at h
      exact absurd h (by simp)
    · exact eq_false_of_ne_true hc

theorem hasRun_remDates_aux : ∀ n : Nat, ∀ l : List Char, l.length ≤ n →
    ∀ b : Bool, hasRunA b l = false → hasRunA b (remDatesA 0 b l) = false := by
  intro n
  induction n with
  | zero =>
    intro l hl b h
    have : l = [] := List.length_eq_zero.mp (Nat.le_zero.mp hl)
    subst this
    rfl
  | succ n ih =>
    intro l hl b h
    cases l with
    | nil => rfl
    | cons c cs =>
      have hcs : cs.length ≤ n := by
        simp only [List.length_cons] at hl
        omega
      by_cases hb : b = true
      · subst hb
        rw [remDatesA_true_cons, hasRunA_cons, if_neg (by simp)]
        exact ih cs hcs (isWordChar c) (hasRunA_step true c cs h)
      · have hb' : b = false := eq_false_of_ne_true hb
        subst hb'
        cases hda : dateAt (c :: cs) with
        | none =>
          rw [remDatesA_none_cons c cs hda false, hasRunA_cons]
          have hcond : (!false && c.isDigit &&
              longRunAt (c :: remDatesA 0 (isWordChar c) cs)) = false := by
            by_cases hc : c.isDigit = true
            · rw [digit_isWordChar c hc, longRunAt_remDates c cs hc]
              have hlr : longRunAt (c :: cs) = false := by
                by_cases hlr' : longRunAt (c :: cs) = true
                · rw [hasRunA_cons, if_pos (by simp [hc, hlr'])] at h
                  exact absurd h (by simp)
                · exact eq_false_of_ne_true hlr'
              simp [hlr]
            · simp [eq_false_of_ne_true hc]
          rw [if_neg (by rw [hcond]; exact Bool.false_ne_true)]
          exact ih cs hcs (isWordChar c) (hasRunA_step false c cs h)
        | some m =>
          rw [remDatesA_some_cons c cs m hda]
          have hm5 := dateAt_some_ge _ _ hda
          have hlen : ((c :: cs).drop m).length ≤ n := by
            have hm5 := dateAt_some_ge _ _ hda
            rw [List.length_drop]
            simp only [List.length_cons] at hl ⊢
            omega
          have hw := headIsWord_after_date _ m hda
          have hrun := hasRun_after_date _ m false hda h
          have hIH := ih _ hlen true hrun
          rw [hasRunA_flag _
            (remDatesA_head_nondigit _ true (nonword_nondigit _ hw)).2 false true]
          exact hIH

/-- Date removal cannot create a standalone long digit run. -/
theorem hasRun_remDates (l : List Char) (b : Bool) (h : hasRunA b l = false) :
    hasRunA b (remDatesA 0 b l) = false :=
  hasRun_remDates_aux l.length l (le_refl _) b h

theorem stripLead_some : ∀ (pat l rest : List Char),
    stripLead pat l = some rest → l = pat ++ rest := by
  intro pat
  induction pat with
  | nil =>
    intro l rest h
    simp only [stripLead, Option.some_inj] at h
    rw [h, List.nil_append]
  | cons p ps ih =>
    intro l rest h
    cases l with
    | nil => exact absurd h (by simp [stripLead])
    | cons c cs =>
      simp only [stripLead] at h
      by_cases hc : (c == p) = true
      · rw [if_pos hc] at h
        rw [List.cons_append, ← ih cs rest h, eq_of_beq hc]
      · rw [if_neg hc] at h
        exact absurd h (by simp)

/-- A successful gateway-pattern match decomposes the input as the base,
optionally one whitespace character, a star, and the remainder. -/
theorem matchSub_some (base : List Char) (opt : Bool) (l r : List Char)
    (h : matchSub base opt l = some r) :
    l = base ++ ('*' :: r) ∨
      ∃ sp, isPySpace sp = true ∧ l = base ++ (sp :: '*' :: r) := by
  simp only [matchSub] at h
  split at h
  next r1 heq =>
    simp only [Option.some_inj] at h
    subst h
    exact Or.inl (stripLead_some base l _ heq)
  next c r1 hne heq =>
    by_cases hop : (opt && isPySpace c) = true
    · rw [if_pos hop] at h
      simp only [Option.some_inj] at h
      subst h
      exact Or.inr ⟨c, (Bool.and_eq_true_iff.mp hop).2, stripLead_some base l _ heq⟩
    · rw [if_neg hop] at h
      exact absurd h (by simp)
  next =>
    exact absurd h (by simp)

theorem hasRunA_nondigit_cons (c : Char) (cs : List Char) (b : Bool)
    (h : c.isDigit = false) :
    hasRunA b (c :: cs) = hasRunA (isWordChar c) cs := by
  rw [hasRunA_cons, if_neg (by simp [h])]

theorem hasRunA_star_pre : ∀ (pre : List Char),
    pre.all (fun c => !c.isDigit) = true → ∀ (rest : List Char) (b : Bool),
    hasRunA b (pre ++ '*' :: rest) = hasRunA false rest := by
  intro pre
  induction pre with
  | nil =>
    intro _ rest b
    rw [List.nil_append, hasRunA_nondigit_cons _ _ _ (by decide)]
    have : isWordChar '*' = false := by decide
    rw [this]
  | cons p ps ih =>
    intro hall rest b
    simp only [List.all_cons, Bool.and_eq_true] at hall
    rw [List.cons_append, hasRunA_nondigit_cons _ _ _ (by simpa using hall.1)]
    exact ih hall.2 rest _

theorem hasDateA_nondigit_cons (c : Char) (cs : List Char) (b : Bool)
    (h : c.isDigit = false) :
    hasDateA b (c :: cs) = hasDateA (isWordChar c) cs := by
  rw [hasDateA_cons, if_neg (by simp [dateAt_none_head_nondigit c cs h])]

theorem hasDateA_star_pre : ∀ (pre : List Char),
    pre.all (fun c => !c.isDigit) = true → ∀ (rest : List Char) (b : Bool),
    hasDateA b (pre ++ '*' :: rest) = hasDateA false rest := by
  intro pre
  induction pre with
  | nil =>
    intro _ rest b
    rw [List.nil_append, hasDateA_nondigit_cons _ _ _ (by decide)]
    have : isWordChar '*' = false := by decide
    rw [this]
  | cons p ps ih =>
    intro hall rest b
    simp only [List.all_cons, Bool.and_eq_true] at hall
    rw [List.cons_append, hasDateA_nondigit_cons _ _ _ (by simpa using hall.1)]
    exact ih hall.2 rest _

theorem hasRun_applySub (base : List Char) (opt : Bool) (pre : List Char) (l : List Char)
    (hbase : base.all (fun c => !c.isDigit) = true)
    (hpre : pre.all (fun c => !c.isDigit) = true) :
    hasRunA false (applySub base opt (pre ++ ['*']) l) = hasRunA false l := by
  simp only [applySub]
  cases hm : matchSub base opt l with
  | none => rfl
  | some r =>
    rcases matchSub_some base opt l r hm with hl | ⟨sp, hsp, hl⟩
    · subst hl
      show hasRunA false (pre ++ ['*'] ++ r) = hasRunA false (base ++ '*' :: r)
      rw [List.append_assoc, List.singleton_append, hasRunA_star_pre pre hpre,
        hasRunA_star_pre base hbase]
    · subst hl
      show hasRunA false (pre ++ ['*'] ++ r) = hasRunA false (base ++ sp :: '*' :: r)
      rw [List.append_assoc, List.singleton_append, hasRunA_star_pre pre hpre]
      have hre : base ++ sp :: '*' :: r = (base ++ [sp]) ++ '*' :: r := by
        rw [List.append_assoc, List.singleton_append]
      rw [hre, hasRunA_star_pre (base ++ [sp])]
      rw [List.all_append, hbase]
      simp [space_not_digit sp hsp]

theorem hasDate_applySub (base : List Char) (opt : Bool) (pre : List Char) (l : List Char)
    (hbase : base.all (fun c => !c.isDigit) = true)
    (hpre : pre.all (fun c => !c.isDigit) = true) :
    hasDateA false (applySub base opt (pre ++ ['*']) l) = hasDateA false l := by
  simp only [applySub]
  cases hm : matchSub base opt l with
  | none => rfl
  | some r =>
    rcases matchSub_some base opt l r hm with hl | ⟨sp, hsp, hl⟩
    · subst hl
      show hasDateA false (pre ++ ['*'] ++ r) = hasDateA false (base ++ '*' :: r)
      rw [List.append_assoc, List.singleton_append, hasDateA_star_pre pre hpre,
        hasDateA_star_pre base hbase]
    · subst hl
      show hasDateA false (pre ++ ['*'] ++ r) = hasDateA false (base ++ sp :: '*' :: r)
      rw [List.append_assoc, List.singleton_append, hasDateA_star_pre pre hpre]
      have hre : base ++ sp :: '*' :: r = (base ++ [sp]) ++ '*' :: r := by
        rw [List.append_assoc, List.singleton_append]
      rw [hre, hasDateA_star_pre (base ++ [sp])]
      rw [List.all_append, hbase]
      simp [space_not_digit sp hsp]

theorem gwRepl_eq : gwRepl = ['G','A','T','E','W','A','Y'] ++ ['*'] := rfl

theorem ppRepl_eq : ppRepl = ['P','I','C','P','A','Y'] ++ ['*'] := rfl

theorem hasRun_gatewayRewrite (l : List Char) :
    hasRunA false (gatewayRewrite l) = hasRunA false l := by
  simp only [gatewayRewrite, gwRepl_eq, ppRepl_eq]
  rw [hasRun_applySub _ _ _ _ (by decide) (by decide),
    hasRun_applySub _ _ _ _ (by decide) (by decide),
    hasRun_applySub _ _ _ _ (by decide) (by decide),
    hasRun_applySub _ _ _ _ (by decide) (by decide),
    hasRun_applySub _ _ _ _ (by decide) (by decide),
    hasRun_applySub _ _ _ _ (by decide) (by decide),
    hasRun_applySub _ _ _ _ (by decide) (by decide),
    hasRun_applySub _ _ _ _ (by decide) (by decide)]

theorem hasDate_gatewayRewrite (l : List Char) :
    hasDateA false (gatewayRewrite l) = hasDateA false l := by
  simp only [gatewayRewrite, gwRepl_eq, ppRepl_eq]
  rw [hasDate_applySub _ _ _ _ (by decide) (by decide),
    hasDate_applySub _ _ _ _ (by decide) (by decide),
    hasDate_applySub _ _ _ _ (by decide) (by decide),
    hasDate_applySub _ _ _ _ (by decide) (by decide),
    hasDate_applySub _ _ _ _ (by decide) (by decide),
    hasDate_applySub _ _ _ _ (by decide) (by decide),
    hasDate_applySub _ _ _ _ (by decide) (by decide),
    hasDate_applySub _ _ _ _ (by decide) (by decide)]

theorem digit_not_space (c : Char) (h : c.isDigit = true) : isPySpace c = false := by
  by_cases hs : isPySpace c = true
  · rw [space_not_digit c hs] at h
    exact absurd h (by simp)
  · exact eq_false_of_ne_true hs

theorem space_ne_slash (c : Char) (h : isPySpace c = true) : (c == '/') = false := by
  simp only [isPySpace, Bool.or_eq_true, beq_iff_eq] at h
  rcases h with ((((h | h) | h) | h) | h) | h <;> subst h <;> decide

theorem collapseA_nonspace_cons (c : Char) (cs : List Char) (h : isPySpace c = false) :
    collapseA false (c :: cs) = c :: collapseA false cs := by
  simp only [collapseA, h]
  rw [if_neg (by simp)]

theorem collapseA_space_cons (c : Char) (cs : List Char) (h : isPySpace c = true) :
    collapseA false (c :: cs) = ' ' :: collapseA true cs := by
  simp [collapseA, h]

theorem collapseA_length_le (b : Bool) : ∀ l : List Char,
    (collapseA b l).length ≤ l.length := by
  intro l
  induction l generalizing b with
  | nil => simp [collapseA]
  | cons c cs ih =>
    simp only [collapseA]
    by_cases h : isPySpace c = true
    · rw [if_pos h]
      cases b with
      | true =>
        rw [if_pos rfl]
        exact le_trans (ih true) (by simp)
      | false =>
        rw [if_neg (by simp)]
        simpa using ih true
    · rw [if_neg h]
      simpa using ih false

theorem collapse_heads (l : List Char) :
    headIsWord (collapseA false l) = headIsWord l ∧
    headDigit (collapseA false l) = headDigit l ∧
    headSlash (collapseA false l) = headSlash l := by
  cases l with
  | nil => exact ⟨rfl, rfl, rfl⟩
  | cons c cs =>
    by_cases h : isPySpace c = true
    · rw [collapseA_space_cons c cs h]
      refine ⟨?_, ?_, ?_⟩
      · simp only [headIsWord]
        rw [space_not_word c h]
        decide
      · simp only [headDigit]
        rw [space_not_digit c h]
        decide
      · simp only [headSlash]
        rw [space_ne_slash c h]
        decide
    · rw [collapseA_nonspace_cons c cs (eq_false_of_ne_true h)]
      exact ⟨rfl, rfl, rfl⟩

theorem collapse_digit_prefix : ∀ (tw rest : List Char), tw.all Char.isDigit = true →
    collapseA false (tw ++ rest) = tw ++ collapseA false rest := by
  intro tw
  induction tw with
  | nil => intro rest _; rfl
  | cons t tw ih =>
    intro rest hall
    simp only [List.all_cons, Bool.and_eq_true] at hall
    rw [List.cons_append, collapseA_nonspace_cons t _ (digit_not_space t hall.1),
      ih rest hall.2, List.cons_append]

/-- The digit-run structure at a position is unchanged by whitespace
collapsing of the tail. -/
theorem runStruct_collapse (ys : List Char) :
    (collapseA false ys).takeWhile Char.isDigit = ys.takeWhile Char.isDigit ∧
    headIsWord ((collapseA false ys).dropWhile Char.isDigit) =
      headIsWord (ys.dropWhile Char.isDigit) := by
  have hsplit : ys.takeWhile Char.isDigit ++ ys.dropWhile Char.isDigit = ys :=
    List.takeWhile_append_dropWhile Char.isDigit ys
  have h1 : collapseA false ys =
      ys.takeWhile Char.isDigit ++ collapseA false (ys.dropWhile Char.isDigit) := by
    conv_lhs => rw [← hsplit]
    exact collapse_digit_prefix _ _ (all_takeWhile_digits ys)
  have hhd : headDigit (collapseA false (ys.dropWhile Char.isDigit)) = false := by
    rw [(collapse_heads _).2.1]
    exact headDigit_dropWhile ys
  have happ := takeWhile_digits_append (ys.takeWhile Char.isDigit)
    (collapseA false (ys.dropWhile Char.isDigit)) (all_takeWhile_digits ys) hhd
  refine ⟨?_, ?_⟩
  · rw [h1, happ.1]
  · rw [h1, happ.2, (collapse_heads _).1]

theorem longRunAt_collapse (c : Char) (cs : List Char) :
    longRunAt (c :: collapseA false cs) = longRunAt (c :: cs) := by
  by_cases hc : c.isDigit = true
  · have hrs := runStruct_collapse cs
    simp only [longRunAt, List.takeWhile_cons, if_pos hc, List.dropWhile_cons, if_pos hc,
      hrs.1, hrs.2]
  · have hc' := eq_false_of_ne_true hc
    simp [longRunAt, List.takeWhile_cons, List.dropWhile_cons, hc', headIsWord]

theorem dateAt_none_slot2 (a b : Char) (xs : List Char) (h : b.isDigit = false) :
    dateAt (a :: b :: xs) = none := by
  rcases xs with _ | ⟨u, _ | ⟨v, _ | ⟨w, r⟩⟩⟩ <;> simp [dateAt, h]

theorem dateAt_none_slot3 (a b s : Char) (xs : List Char) (h : (s == '/') = false) :
    dateAt (a :: b :: s :: xs) = none := by
  rcases xs with _ | ⟨u, _ | ⟨v, r⟩⟩ <;> simp [dateAt, h]

theorem dateAt_none_slot4 (a b s d : Char) (xs : List Char) (h : d.isDigit = false) :
    dateAt (a :: b :: s :: d :: xs) = none := by
  rcases xs with _ | ⟨u, r⟩ <;> simp [dateAt, h]

theorem dateAt_none_slot5 (a b s d e : Char) (xs : List Char) (h : e.isDigit = false) :
    dateAt (a :: b :: s :: d :: e :: xs) = none := by
  simp [dateAt, h]

/-- The presence of a date match at a non-whitespace position is unchanged
by whitespace collapsing of the remainder. -/
theorem dateAt_collapse : ∀ l : List Char, headSpace l = false →
    (dateAt (collapseA false l)).isSome = (dateAt l).isSome := by
  intro l hl
  rcases l with _ | ⟨x1, cs⟩
  · rfl
  simp only [headSpace] at hl
  rw [collapseA_nonspace_cons x1 cs hl]
  rcases cs with _ | ⟨x2, cs2⟩
  · rfl
  by_cases h2 : isPySpace x2 = true
  · rw [collapseA_space_cons x2 cs2 h2,
      dateAt_none_slot2 _ _ _ (space_not_digit x2 h2),
      dateAt_none_slot2 _ _ _ (by decide : (' ' : Char).isDigit = false)]
  · rw [collapseA_nonspace_cons x2 cs2 (eq_false_of_ne_true h2)]
    rcases cs2 with _ | ⟨x3, cs3⟩
    · rfl
    by_cases h3 : isPySpace x3 = true
    · rw [collapseA_space_cons x3 cs3 h3,
        dateAt_none_slot3 _ _ _ _ (space_ne_slash x3 h3),
        dateAt_none_slot3 _ _ _ _ (by decide : ((' ' : Char) == '/') = false)]
    · rw [collapseA_nonspace_cons x3 cs3 (eq_false_of_ne_true h3)]
      rcases cs3 with _ | ⟨x4, cs4⟩
      · rfl
      by_cases h4 : isPySpace x4 = true
      · rw [collapseA_space_cons x4 cs4 h4,
          dateAt_none_slot4 _ _ _ _ _ (space_not_digit x4 h4),
          dateAt_none_slot4 _ _ _ _ _ (by decide : (' ' : Char).isDigit = false)]
      · rw [collapseA_nonspace_cons x4 cs4 (eq_false_of_ne_true h4)]
        rcases cs4 with _ | ⟨x5, rest⟩
        · rfl
        by_cases h5 : isPySpace x5 = true
        · rw [collapseA_space_cons x5 rest h5,
            dateAt_none_slot5 _ _ _ _ _ _ (space_not_digit x5 h5),
            dateAt_none_slot5 _ _ _ _ _ _ (by decide : (' ' : Char).isDigit = false)]
        · rw [collapseA_nonspace_cons x5 rest (eq_false_of_ne_true h5)]
          simp only [dateAt]
          by_cases hcond :
              (x1.isDigit && x2.isDigit && x3 == '/' && x4.isDigit && x5.isDigit) = true
          · rw [if_pos hcond, if_pos hcond, (collapse_heads rest).2.2]
            by_cases hsl : headSlash rest = true
            · rw [if_pos hsl, if_pos hsl]
              have hboth : ∀ (p : Prop) (hd : Decidable p) (a b : Nat),
                  (if p then some a else some b).isSome = true := by
                intro p hd a b
                split <;> rfl
              rw [hboth, hboth]
            · rw [if_neg hsl, if_neg hsl, (collapse_heads rest).1]
          · rw [if_neg hcond, if_neg hcond]

theorem collapseA_true_drop : ∀ cs : List Char,
    collapseA true cs = collapseA false (cs.dropWhile isPySpace) := by
  intro cs
  induction cs with
  | nil => rfl
  | cons c cs ih =>
    by_cases h : isPySpace c = true
    · have e1 : collapseA true (c :: cs) = collapseA true cs := by
        simp [collapseA, h]
      rw [e1, List.dropWhile_cons, if_pos h, ih]
    · have h' := eq_false_of_ne_true h
      have e1 : collapseA true (c :: cs) = c :: collapseA false cs := by
        simp [collapseA, h']
      rw [e1, List.dropWhile_cons, if_neg (by simp [h']), collapseA_nonspace_cons c cs h']

theorem all_takeWhileP (p : Char → Bool) (l : List Char) :
    (l.takeWhile p).all p = true := by
  rw [List.all_eq_true]
  intro c hc
  exact List.mem_takeWhile_imp hc

theorem hasRunA_spaces_pre : ∀ sp : List Char, sp.all isPySpace = true →
    ∀ y : List Char, hasRunA false (sp ++ y) = hasRunA false y := by
  intro sp
  induction sp with
  | nil => intro _ y; rfl
  | cons s sp ih =>
    intro hall y
    simp only [List.all_cons, Bool.and_eq_true] at hall
    rw [List.cons_append, hasRunA_nondigit_cons _ _ _ (space_not_digit s hall.1),
      space_not_word s hall.1]
    exact ih hall.2 y

theorem hasDateA_spaces_pre : ∀ sp : List Char, sp.all isPySpace = true →
    ∀ y : List Char, hasDateA false (sp ++ y) = hasDateA false y := by
  intro sp
  induction sp with
  | nil => intro _ y; rfl
  | cons s sp ih =>
    intro hall y
    simp only [List.all_cons, Bool.and_eq_true] at hall
    rw [List.cons_append, hasDateA_nondigit_cons _ _ _ (space_not_digit s hall.1),
      space_not_word s hall.1]
    exact ih hall.2 y

theorem hasRun_collapse_aux : ∀ n : Nat, ∀ l : List Char, l.length ≤ n →
    ∀ b : Bool, hasRunA b (collapseA false l) = hasRunA b l := by
  intro n
  induction n with
  | zero =>
    intro l hl b
    have : l = [] := List.length_eq_zero.mp (Nat.le_zero.mp hl)
    subst this
    rfl
  | succ n ih =>
    intro l hl b
    cases l with
    | nil => rfl
    | cons c cs =>
      have hcs : cs.length ≤ n := by
        simp only [List.length_cons] at hl
        omega
      by_cases h : isPySpace c = true
      · rw [collapseA_space_cons c cs h, collapseA_true_drop,
          hasRunA_nondigit_cons _ _ _ (by decide : (' ' : Char).isDigit = false),
          (by decide : isWordChar ' ' = false),
          hasRunA_nondigit_cons _ _ _ (space_not_digit c h), space_not_word c h]
        have hdlen : (cs.dropWhile isPySpace).length ≤ n :=
          le_trans (length_dropWhileMono _ _) hcs
        rw [ih _ hdlen false]
        conv_rhs => rw [← List.takeWhile_append_dropWhile isPySpace cs]
        rw [hasRunA_spaces_pre _ (all_takeWhileP isPySpace cs)]
      · have h' := eq_false_of_ne_true h
        rw [collapseA_nonspace_cons c cs h', hasRunA_cons, hasRunA_cons,
          longRunAt_collapse c cs]
        by_cases hcond : (!b && c.isDigit && longRunAt (c :: cs)) = true
        · rw [if_pos hcond, if_pos hcond]
        · rw [if_neg (by simp [eq_false_of_ne_true hcond]),
            if_neg (by simp [eq_false_of_ne_true hcond])]
          exact ih cs hcs (isWordChar c)

theorem hasDate_collapse_aux : ∀ n : Nat, ∀ l : List Char, l.length ≤ n →
    ∀ b : Bool, hasDateA b (collapseA false l) = hasDateA b l := by
  intro n
  induction n with
  | zero =>
    intro l hl b
    have : l = [] := List.length_eq_zero.mp (Nat.le_zero.mp hl)
    subst this
    rfl
  | succ n ih =>
    intro l hl b
    cases l with
    | nil => rfl
    | cons c cs =>
      have hcs : cs.length ≤ n := by
        simp only [List.length_cons] at hl
        omega
      by_cases h : isPySpace c = true
      · rw [collapseA_space_cons c cs h, collapseA_true_drop,
          hasDateA_nondigit_cons _ _ _ (by decide : (' ' : Char).isDigit = false),
          (by decide : isWordChar ' ' = false),
          hasDateA_nondigit_cons _ _ _ (space_not_digit c h), space_not_word c h]
        have hdlen : (cs.dropWhile isPySpace).length ≤ n :=
          le_trans (length_dropWhileMono _ _) hcs
        rw [ih _ hdlen false]
        conv_rhs => rw [← List.takeWhile_append_dropWhile isPySpace cs]
        rw [hasDateA_spaces_pre _ (all_takeWhileP isPySpace cs)]
      · have h' := eq_false_of_ne_true h
        have hdc : (dateAt (c :: collapseA false cs)).isSome =
            (dateAt (c :: cs)).isSome := by
          rw [← collapseA_nonspace_cons c cs h']
          exact dateAt_collapse (c :: cs) (by simpa [headSpace] using h')
        rw [collapseA_nonspace_cons c cs h', hasDateA_cons, hasDateA_cons, hdc]
        by_cases hcond : (!b && (dateAt (c :: cs)).isSome) = true
        · rw [if_pos hcond, if_pos hcond]
        · rw [if_neg (by simp [eq_false_of_ne_true hcond]),
            if_neg (by simp [eq_false_of_ne_true hcond])]
          exact ih cs hcs (isWordChar c)

theorem spaces_heads (sp : List Char) (h : sp.all isPySpace = true) :
    headDigit sp = false ∧ headIsWord sp = false ∧ headSlash sp = false := by
  cases sp with
  | nil => exact ⟨rfl, rfl, rfl⟩
  | cons s sp =>
    simp only [List.all_cons, Bool.and_eq_true] at h
    exact ⟨space_not_digit s h.1, space_not_word s h.1, space_ne_slash s h.1⟩

theorem run_split_append (x sp : List Char) (h : headDigit sp = false) :
    (x ++ sp).takeWhile Char.isDigit = x.takeWhile Char.isDigit ∧
    (x ++ sp).dropWhile Char.isDigit = x.dropWhile Char.isDigit ++ sp := by
  induction x with
  | nil =>
    simp only [List.nil_append, List.takeWhile_nil, List.dropWhile_nil]
    cases sp with
    | nil => exact ⟨rfl, rfl⟩
    | cons s sp2 =>
      simp only [headDigit] at h
      rw [List.takeWhile_cons, if_neg (by simp [h]), List.dropWhile_cons,
        if_neg (by simp [h])]
      exact ⟨rfl, rfl⟩
  | cons c x ih =>
    by_cases hc : c.isDigit = true
    · rw [List.cons_append, List.takeWhile_cons, if_pos hc, List.takeWhile_cons, if_pos hc,
        List.dropWhile_cons, if_pos hc, List.dropWhile_cons, if_pos hc, ih.1, ih.2]
      exact ⟨rfl, rfl⟩
    · rw [List.cons_append, List.takeWhile_cons, if_neg hc, List.takeWhile_cons, if_neg hc,
        List.dropWhile_cons, if_neg hc, List.dropWhile_cons, if_neg hc, List.cons_append]
      exact ⟨rfl, rfl⟩

theorem headIsWord_append_right (x sp : List Char) (hsp : headIsWord sp = false) :
    headIsWord (x ++ sp) = headIsWord x := by
  cases x with
  | nil => simpa using hsp
  | cons c cs => rfl

theorem longRunAt_append_spaces (l sp : List Char) (hsp : sp.all isPySpace = true) :
    longRunAt (l ++ sp) = longRunAt l := by
  have hh := spaces_heads sp hsp
  have hr := run_split_append l sp hh.1
  simp only [longRunAt, hr.1, hr.2, headIsWord_append_right _ sp hh.2.1]

theorem dateAt_append_spaces : ∀ (l sp : List Char), sp.all isPySpace = true →
    (dateAt (l ++ sp)).isSome = (dateAt l).isSome := by
  intro l sp hsp
  have hh := spaces_heads sp hsp
  rcases l with _ | ⟨x1, _ | ⟨x2, _ | ⟨x3, _ | ⟨x4, _ | ⟨x5, rest⟩⟩⟩⟩⟩
  · rw [List.nil_append]
    cases sp with
    | nil => rfl
    | cons s sp2 =>
      simp only [List.all_cons, Bool.and_eq_true] at hsp
      rw [dateAt_none_head_nondigit s sp2 (space_not_digit s hsp.1)]
      rfl
  · rcases sp with _ | ⟨s, sp2⟩
    · rfl
    · simp only [List.all_cons, Bool.and_eq_true] at hsp
      rw [List.cons_append, List.nil_append,
        dateAt_none_slot2 _ _ _ (space_not_digit s hsp.1)]
      rfl
  · rcases sp with _ | ⟨s, sp2⟩
    · rfl
    · simp only [List.all_cons, Bool.and_eq_true] at hsp
      simp only [List.cons_append, List.nil_append]
      rw [dateAt_none_slot3 _ _ _ _ (space_ne_slash s hsp.1)]
      rfl
  · rcases sp with _ | ⟨s, sp2⟩
    · rfl
    · simp only [List.all_cons, Bool.and_eq_true] at hsp
      simp only [List.cons_append, List.nil_append]
      rw [dateAt_none_slot4 _ _ _ _ _ (space_not_digit s hsp.1)]
      rfl
  · rcases sp with _ | ⟨s, sp2⟩
    · rfl
    · simp only [List.all_cons, Bool.and_eq_true] at hsp
      simp only [List.cons_append, List.nil_append]
      rw [dateAt_none_slot5 _ _ _ _ _ _ (space_not_digit s hsp.1)]
      rfl
  · simp only [List.cons_append, dateAt]
    by_cases hcond :
        (x1.isDigit && x2.isDigit && x3 == '/' && x4.isDigit && x5.isDigit) = true
    · rw [if_pos hcond, if_pos hcond]
      cases rest with
      | nil =>
        rw [List.nil_append, if_neg (by simp [hh.2.2]), if_neg (by simp [hh.2.1])]
        rfl
      | cons y ys =>
        rw [List.cons_append]
        by_cases hy : (y == '/') = true
        · have hL : headSlash (y :: (ys ++ sp)) = true := by simpa [headSlash] using hy
          have hR : headSlash (y :: ys) = true := by simpa [headSlash] using hy
          have hboth : ∀ (p : Prop) (hd : Decidable p) (a b : Nat),
              (if p then some a else some b).isSome = true := by
            intro p hd a b
            split <;> rfl
          rw [if_pos hL, hboth, if_pos hR, hboth]
        · have h1 : headSlash (y :: (ys ++ sp)) = false := by simpa [headSlash] using hy
          have h2 : headSlash (y :: ys) = false := by simpa [headSlash] using hy
          by_cases hw : isWordChar y = true
          · rw [if_neg (by simp [h1]),
              if_pos (show headIsWord (y :: (ys ++ sp)) = true from hw),
              if_neg (by simp [h2]),
              if_pos (show headIsWord (y :: ys) = true from hw)]
          · have hw' := eq_false_of_ne_true hw
            rw [if_neg (by simp [h1]),
              if_neg (show ¬headIsWord (y :: (ys ++ sp)) = true by
                simp only [headIsWord]; simp [hw']),
              if_neg (by simp [h2]),
              if_neg (show ¬headIsWord (y :: ys) = true by
                simp only [headIsWord]; simp [hw'])]
    · rw [if_neg hcond, if_neg hcond]

theorem hasRunA_all_spaces : ∀ (sp : List Char), sp.all isPySpace = true →
    ∀ b : Bool, hasRunA b sp = false := by
  intro sp
  induction sp with
  | nil => intro _ b; rfl
  | cons s sp ih =>
    intro hall b
    simp only [List.all_cons, Bool.and_eq_true] at hall
    rw [hasRunA_nondigit_cons _ _ _ (space_not_digit s hall.1)]
    exact ih hall.2 _

theorem hasDateA_all_spaces : ∀ (sp : List Char), sp.all isPySpace = true →
    ∀ b : Bool, hasDateA b sp = false := by
  intro sp
  induction sp with
  | nil => intro _ b; rfl
  | cons s sp ih =>
    intro hall b
    simp only [List.all_cons, Bool.and_eq_true] at hall
    rw [hasDateA_nondigit_cons _ _ _ (space_not_digit s hall.1)]
    exact ih hall.2 _

theorem hasRunA_append_spaces : ∀ (x sp : List Char), sp.all isPySpace = true →
    ∀ b : Bool, hasRunA b (x ++ sp) = hasRunA b x := by
  intro x sp hsp
  induction x with
  | nil =>
    intro b
    rw [List.nil_append, hasRunA_all_spaces sp hsp b]
    rfl
  | cons c cs ih =>
    intro b
    rw [List.cons_append, hasRunA_cons, hasRunA_cons, ← List.cons_append,
      longRunAt_append_spaces (c :: cs) sp hsp]
    by_cases hcond : (!b && c.isDigit && longRunAt (c :: cs)) = true
    · rw [if_pos hcond, if_pos hcond]
    · rw [if_neg (by simp [eq_false_of_ne_true hcond]),
        if_neg (by simp [eq_false_of_ne_true hcond])]
      exact ih _

theorem hasDateA_append_spaces : ∀ (x sp : List Char), sp.all isPySpace = true →
    ∀ b : Bool, hasDateA b (x ++ sp) = hasDateA b x := by
  intro x sp hsp
  induction x with
  | nil =>
    intro b
    rw [List.nil_append, hasDateA_all_spaces sp hsp b]
    rfl
  | cons c cs ih =>
    intro b
    rw [List.cons_append, hasDateA_cons, hasDateA_cons, ← List.cons_append,
      dateAt_append_spaces (c :: cs) sp hsp]
    by_cases hcond : (!b && (dateAt (c :: cs)).isSome) = true
    · rw [if_pos hcond, if_pos hcond]
    · rw [if_neg (by simp [eq_false_of_ne_true hcond]),
        if_neg (by simp [eq_false_of_ne_true hcond])]
      exact ih _

/-- Decomposition of `rstrip`: the input is the result plus trailing
whitespace. -/
theorem rstrip_spec (l : List Char) :
    l = rstrip l ++ (l.reverse.takeWhile isPySpace).reverse ∧
      ((l.reverse.takeWhile isPySpace).reverse).all isPySpace = true := by
  constructor
  · conv_lhs => rw [← List.reverse_reverse l,
      ← List.takeWhile_append_dropWhile isPySpace l.reverse]
    rw [List.reverse_append]
    rfl
  · rw [List.all_eq_true]
    intro c hc
    rw [List.mem_reverse] at hc
    exact List.mem_takeWhile_imp hc

theorem hasRun_rstrip (l : List Char) (b : Bool) :
    hasRunA b (rstrip l) = hasRunA b l := by
  conv_rhs => rw [(rstrip_spec l).1]
  rw [hasRunA_append_spaces _ _ (rstrip_spec l).2]

theorem hasDate_rstrip (l : List Char) (b : Bool) :
    hasDateA b (rstrip l) = hasDateA b l := by
  conv_rhs => rw [(rstrip_spec l).1]
  rw [hasDateA_append_spaces _ _ (rstrip_spec l).2]

theorem hasRun_lstrip (l : List Char) :
    hasRunA false (lstrip l) = hasRunA false l := by
  conv_rhs => rw [← List.takeWhile_append_dropWhile isPySpace l]
  rw [hasRunA_spaces_pre _ (all_takeWhileP isPySpace l)]
  rfl

theorem hasDate_lstrip (l : List Char) :
    hasDateA false (lstrip l) = hasDateA false l := by
  conv_rhs => rw [← List.takeWhile_append_dropWhile isPySpace l]
  rw [hasDateA_spaces_pre _ (all_takeWhileP isPySpace l)]
  rfl

theorem hasRun_stripL (l : List Char) :
    hasRunA false (stripL l) = hasRunA false l := by
  rw [stripL, hasRun_rstrip, hasRun_lstrip]

theorem hasDate_stripL (l : List Char) :
    hasDateA false (stripL l) = hasDateA false l := by
  rw [stripL, hasDate_rstrip, hasDate_lstrip]

theorem cleanChar_not_accented (c : Char) (h : cleanChar c = true) :
    isAccented c = false := by
  simp only [cleanChar, Bool.and_eq_true] at h
  simp only [isAccented]
  rcases h with ⟨⟨h1, _⟩, _⟩
  rw [Option.isNone_iff_eq_none] at h1
  rw [h1]
  rfl

theorem upperChar_idem (c : Char) : upperChar (upperChar c) = upperChar c := by
  by_cases hf : (upperTable.find? (fun e => e.1 == c)).isSome = true
  · rcases Option.isSome_iff_exists.mp hf with ⟨e, he⟩
    have hmem := List.mem_of_find?_eq_some he
    have htab : upperTable.all
        (fun e => (upperTable.find? (fun e2 => e2.1 == e.2)).isNone) = true := by decide
    have hnone := List.all_eq_true.mp htab e hmem
    rw [Option.isNone_iff_eq_none] at hnone
    simp only [upperChar, he, hnone]
  · have hnone : upperTable.find? (fun e => e.1 == c) = none :=
      Option.not_isSome_iff_eq_none.mp (by simpa using hf)
    simp only [upperChar, hnone]

theorem mem_upperL (l : List Char) (c : Char) (h : c ∈ upperL l) :
    upperChar c = c := by
  rcases List.mem_map.mp h with ⟨y, _, hy⟩
  rw [← hy]
  exact upperChar_idem y

/-- Accent removal leaves only clean characters when applied to an
upper-fixed string. -/
theorem clean_deaccent (x : List Char) (hup : ∀ y ∈ x, upperChar y = y) :
    ∀ c ∈ deaccentL x, cleanChar c = true := by
  intro c hc
  simp only [deaccentL] at hc
  rcases List.mem_filter.mp hc with ⟨hmem, hnm⟩
  rcases List.mem_flatMap.mp hmem with ⟨y, hy, hcy⟩
  simp only [nfdChar] at hcy
  cases hf : nfdTable.find? (fun e => e.1 == y) with
  | none =>
    rw [hf] at hcy
    simp only [List.mem_singleton] at hcy
    subst hcy
    simp only [cleanChar, Bool.and_eq_true]
    refine ⟨⟨?_, by simpa using hnm⟩, by simp [hup c hy]⟩
    rw [hf]
    rfl
  | some e =>
    rw [hf] at hcy
    have hmem2 := List.mem_of_find?_eq_some hf
    have hpred := List.find?_some hf
    have hkey : e.1 = y := eq_of_beq hpred
    have hupk : (upperChar e.1 == e.1) = true := by
      rw [hkey]
      simp [hup y hy]
    have htab : nfdTable.all
        (fun e => !(upperChar e.1 == e.1) ||
          e.2.all (fun d => isMark d || cleanChar d)) = true := by decide
    have hrow := List.all_eq_true.mp htab e hmem2
    rw [Bool.or_eq_true] at hrow
    rcases hrow with hbad | hgood
    · rw [hupk] at hbad
      exact absurd hbad (by simp)
    · have hcell := List.all_eq_true.mp hgood c hcy
      rw [Bool.or_eq_true] at hcell
      rcases hcell with hm | hcl
      · rw [hm] at hnm
        exact absurd hnm (by simp)
      · exact hcl

/-- Every character of the digit-run-removal output occurs in the input. -/
theorem mem_remRunsA : ∀ (l : List Char) (k : Nat) (b : Bool) (c : Char),
    c ∈ remRunsA k b l → c ∈ l := by
  intro l
  induction l with
  | nil =>
    intro k b c h
    cases k with
    | zero => exact absurd h (by simp [remRunsA])
    | succ j => exact absurd h (by simp [remRunsA])
  | cons a cs ih =>
    intro k b c h
    cases k with
    | succ j =>
      have h2 : c ∈ remRunsA j true cs := h
      exact List.mem_cons_of_mem a (ih j true c h2)
    | zero =>
      cases hcond : (!b && a.isDigit && longRunAt (a :: cs)) with
      | true =>
        rw [show remRunsA 0 b (a :: cs) =
            (if !b && a.isDigit && longRunAt (a :: cs) then
              remRunsA (((a :: cs).takeWhile Char.isDigit).length - 1) true cs
            else a :: remRunsA 0 (isWordChar a) cs) from rfl, if_pos hcond] at h
        exact List.mem_cons_of_mem a (ih _ true c h)
      | false =>
        rw [remRunsA_emit a cs b hcond] at h
        rcases List.mem_cons.mp h with h | h
        · exact h ▸ List.mem_cons_self a cs
        · exact List.mem_cons_of_mem a (ih 0 (isWordChar a) c h)

/-- Every character of the date-removal output occurs in the input. -/
theorem mem_remDatesA : ∀ (l : List Char) (k : Nat) (b : Bool) (c : Char),
    c ∈ remDatesA k b l → c ∈ l := by
  intro l
  induction l with
  | nil =>
    intro k b c h
    cases k with
    | zero => exact absurd h (by simp [remDatesA])
    | succ j => exact absurd h (by simp [remDatesA])
  | cons a cs ih =>
    intro k b c h
    cases k with
    | succ j =>
      have h2 : c ∈ remDatesA j true cs := h
      exact List.mem_cons_of_mem a (ih j true c h2)
    | zero =>
      cases hd : (if !b then dateAt (a :: cs) else none) with
      | some n =>
        rw [show remDatesA 0 b (a :: cs) =
            (match (if !b then dateAt (a :: cs) else none) with
            | some n => remDatesA (n - 1) true cs
            | none => a :: remDatesA 0 (isWordChar a) cs) from rfl, hd] at h
        exact List.mem_cons_of_mem a (ih _ true c h)
      | none =>
        rw [show remDatesA 0 b (a :: cs) =
            (match (if !b then dateAt (a :: cs) else none) with
            | some n => remDatesA (n - 1) true cs
            | none => a :: remDatesA 0 (isWordChar a) cs) from rfl, hd] at h
        rcases List.mem_cons.mp h with h | h
        · exact h ▸ List.mem_cons_self a cs
        · exact List.mem_cons_of_mem a (ih 0 (isWordChar a) c h)

/-- Every character of the whitespace-collapsing output occurs in the input
or is the replacement space. -/
theorem mem_collapseA : ∀ (l : List Char) (b : Bool) (c : Char),
    c ∈ collapseA b l → c ∈ l ∨ c = ' ' := by
  intro l
  induction l with
  | nil => intro b c h; exact absurd h (by simp [collapseA])
  | cons a cs ih =>
    intro b c h
    cases hsp : isPySpace a with
    | true =>
      rw [show collapseA b (a :: cs) =
          (if isPySpace a then
            (if b then collapseA true cs else ' ' :: collapseA true cs)
          else a :: collapseA false cs) from rfl, if_pos hsp] at h
      cases b with
      | true =>
        rw [if_pos rfl] at h
        exact (ih true c h).imp (List.mem_cons_of_mem a) id
      | false =>
        rw [if_neg (by simp)] at h
        rcases List.mem_cons.mp h with h | h
        · exact Or.inr h
        · exact (ih true c h).imp (List.mem_cons_of_mem a) id
    | false =>
      rw [show collapseA b (a :: cs) =
          (if isPySpace a then
            (if b then collapseA true cs else ' ' :: collapseA true cs)
          else a :: collapseA false cs) from rfl, if_neg (by simp [hsp])] at h
      rcases List.mem_cons.mp h with h | h
      · exact Or.inl (h ▸ List.mem_cons_self a cs)
      · exact (ih false c h).imp (List.mem_cons_of_mem a) id

/-- `stripLead` succeeds exactly on the strings that start with the pattern,
and returns the remainder. -/
theorem stripLead_append : ∀ (p l r : List Char), stripLead p l = some r →
    l = p ++ r := by
  intro p
  induction p with
  | nil => intro l r h; cases h; rfl
  | cons q qs ih =>
    intro l r h
    cases l with
    | nil => exact absurd h (by simp [stripLead])
    | cons a as =>
      rw [show stripLead (q :: qs) (a :: as) =
          (if a == q then stripLead qs as else none) from rfl] at h
      cases hq : (a == q) with
      | false => rw [hq] at h; exact absurd h (by simp)
      | true =>
        rw [hq, if_pos rfl] at h
        have := ih as r h
        simp [eq_of_beq hq, this]

/-- A successful gateway-pattern match splits the input into a non-empty
matched prefix and the remainder. -/
theorem matchSub_decomp (base : List Char) (opt : Bool) (l r : List Char)
    (h : matchSub base opt l = some r) :
    ∃ pre, l = pre ++ r ∧ pre ≠ [] := by
  rw [matchSub] at h
  split at h
  · rename_i rem heq
    cases h
    have := stripLead_append _ _ _ heq
    exact ⟨base ++ ['*'], by simp [this], by simp⟩
  · rename_i rem ch r1 hne heq
    split at h
    · cases h
      have := stripLead_append _ _ _ heq
      exact ⟨base ++ [ch, '*'], by simp [this], by simp⟩
    · exact absurd h (by simp)
  · exact absurd h (by simp)

theorem mem_lstrip (l : List Char) (c : Char) (h : c ∈ lstrip l) : c ∈ l := by
  rw [lstrip, dropWhile_eq_drop_len] at h
  exact List.drop_subset _ l h

theorem mem_rstrip (l : List Char) (c : Char) (h : c ∈ rstrip l) : c ∈ l := by
  rw [rstrip, dropWhile_eq_drop_len] at h
  exact List.mem_reverse.mp (List.drop_subset _ l.reverse (List.mem_reverse.mp h))

theorem mem_stripL (l : List Char) (c : Char) (h : c ∈ stripL l) : c ∈ l :=
  mem_lstrip l c (mem_rstrip (lstrip l) c h)

/-- A boolean character property that holds on the input and on the
replacement holds on the output of one gateway substitution. -/
theorem applySub_pred (P : Char → Bool) (base : List Char) (opt : Bool)
    (repl l : List Char) (hl : ∀ c ∈ l, P c = true) (hr : ∀ c ∈ repl, P c = true) :
    ∀ c ∈ applySub base opt repl l, P c = true := by
  intro c hc
  rw [applySub] at hc
  split at hc
  · rename_i r heq
    rcases List.mem_append.mp hc with h | h
    · exact hr c h
    · rcases matchSub_decomp _ _ _ _ heq with ⟨pre, hpre, _⟩
      exact hl c (hpre ▸ List.mem_append.mpr (Or.inr h))
  · exact hl c hc

/-- A boolean character property that holds on the input and on both
replacement tokens holds on the output of the gateway-rewrite block. -/
theorem gatewayRewrite_pred (P : Char → Bool) (l : List Char)
    (hl : ∀ c ∈ l, P c = true) (hgw : ∀ c ∈ gwRepl, P c = true)
    (hpp : ∀ c ∈ ppRepl, P c = true) :
    ∀ c ∈ gatewayRewrite l, P c = true := by
  rw [gatewayRewrite]
  exact applySub_pred P _ _ _ _
    (applySub_pred P _ _ _ _
      (applySub_pred P _ _ _ _
        (applySub_pred P _ _ _ _
          (applySub_pred P _ _ _ _
            (applySub_pred P _ _ _ _
              (applySub_pred P _ _ _ _
                (applySub_pred P _ _ _ _ hl hgw) hgw) hgw) hgw) hgw) hgw) hgw) hpp

/-- Every character of a fully normalized description is clean: not a
precomposed accented letter, not a combining mark, fixed by uppercasing. -/
theorem normalizeL_clean (l : List Char) :
    ∀ c ∈ normalizeL l, cleanChar c = true := by
  intro c hc
  rw [normalizeL] at hc
  have h1 : ∀ c ∈ deaccentL (stripL (upperL l)), cleanChar c = true :=
    clean_deaccent _ (fun y hy => mem_upperL l y (mem_stripL _ y hy))
  have h2 : ∀ c ∈ remRuns (deaccentL (stripL (upperL l))), cleanChar c = true :=
    fun c hc => h1 c (mem_remRunsA _ 0 false c hc)
  have h3 : ∀ c ∈ remDates (remRuns (deaccentL (stripL (upperL l)))),
      cleanChar c = true :=
    fun c hc => h2 c (mem_remDatesA _ 0 false c hc)
  have h4 : ∀ c ∈ gatewayRewrite (remDates (remRuns (deaccentL (stripL (upperL l))))),
      cleanChar c = true :=
    gatewayRewrite_pred cleanChar _ h3 (by decide) (by decide)
  have h5 : ∀ c ∈ collapseL (gatewayRewrite
      (remDates (remRuns (deaccentL (stripL (upperL l)))))), cleanChar c = true := by
    intro c hc
    rcases mem_collapseA _ false c hc with h | h
    · exact h4 c h
    · rw [h]; decide
  exact h5 c (mem_stripL _ c hc)

/-- The pipeline output never contains a standalone digit run of length at
least four. -/
theorem hasRun_normalizeL (l : List Char) : hasRun (normalizeL l) = false := by
  rw [normalizeL, hasRun]
  rw [hasRun_stripL]
  rw [show collapseL (gatewayRewrite (remDates (remRuns (deaccentL (stripL (upperL l)))))) =
      collapseA false (gatewayRewrite (remDates (remRuns (deaccentL (stripL (upperL l))))))
      from rfl]
  rw [hasRun_collapse_aux _ _ (le_refl _)]
  rw [hasRun_gatewayRewrite]
  rw [show remDates (remRuns (deaccentL (stripL (upperL l)))) =
      remDatesA 0 false (remRuns (deaccentL (stripL (upperL l)))) from rfl]
  exact hasRun_remDates _ false (hasRun_remRuns _ false)

/-- Reading back the character list of a string built from a list. -/
theorem toList_mk (l : List Char) : (String.mk l).toList = l := rfl

/-- C8: For every input description, the output of the normalization
function contains no accented Latin characters (the precomposed characters
decomposed by the source's NFD step) and no standalone digit run, bounded by
word boundaries, of length 4 or more. -/
theorem normalize_no_accents_no_digit_runs (s : String) :
    ((normalize_description s).toList.all (fun c => !isAccented c)) = true ∧
    hasRun (normalize_description s).toList = false := by
  by_cases hs : s = ""
  · subst hs
    exact ⟨rfl, rfl⟩
  · have hL : (normalize_description s).toList = normalizeL s.toList := by
      rw [normalize_description, if_neg hs, toList_mk]
    rw [hL]
    refine ⟨?_, hasRun_normalizeL s.toList⟩
    rw [List.all_eq_true]
    intro c hc
    have hclean := normalizeL_clean s.toList c hc
    have hacc := cleanChar_not_accented c hclean
    simp [hacc]

/-- The text following a date match starts with a non-digit (its trailing
boundary). -/
theorem dateAt_drop_nondigit (l : List Char) (m : Nat) (h : dateAt l = some m) :
    headDigit (l.drop m) = false := by
  rcases dateAt_some_cases l m h with ⟨d1, d2, d3, d4, rest, rfl, hd1, hd2, hd3, hd4, hc⟩
  rcases hc with ⟨rfl, hw⟩ | ⟨rest2, rfl, rfl, hge, hle, hw⟩
  · rw [show (d1 :: d2 :: '/' :: d3 :: d4 :: rest).drop 5 = rest from rfl]
    cases rest with
    | nil => rfl
    | cons a as =>
      cases ha : a.isDigit with
      | false => exact ha
      | true =>
        rw [show headIsWord (a :: as) = isWordChar a from rfl,
          digit_isWordChar a ha] at hw
        exact absurd hw (by simp)
  · have hd : (d1 :: d2 :: '/' :: d3 :: d4 :: '/' :: rest2).drop
        (6 + (rest2.takeWhile Char.isDigit).length) =
        rest2.dropWhile Char.isDigit := by
      have hd6 : (d1 :: d2 :: '/' :: d3 :: d4 :: '/' :: rest2).drop 6 = rest2 := rfl
      rw [← List.drop_drop, hd6, ← dropWhile_eq_drop_len]
    rw [hd]
    exact headDigit_dropWhile rest2

/-- If no date match starts at a digit-headed position, none starts there
after the date scanner has rewritten the tail. -/
theorem dateAt_none_remDates (c : Char) (cs : List Char)
    (hc : c.isDigit = true) (hn : dateAt (c :: cs) = none) :
    dateAt (c :: remDatesA 0 true cs) = none := by
  cases cs with
  | nil => simp [remDatesA, dateAt]
  | cons d cs2 =>
    rw [remDatesA_true_cons]
    cases hd : d.isDigit with
    | false => exact dateAt_none_slot2 _ _ _ hd
    | true =>
      rw [digit_isWordChar d hd]
      cases cs2 with
      | nil => simp [remDatesA, dateAt]
      | cons s cs3 =>
        rw [remDatesA_true_cons]
        cases hs : (s == '/') with
        | false => exact dateAt_none_slot3 _ _ _ _ hs
        | true =>
          have hseq : s = '/' := eq_of_beq hs
          subst hseq
          rw [show isWordChar '/' = false from rfl]
          cases cs3 with
          | nil => simp [remDatesA, dateAt]
          | cons e cs4 =>
            cases he : e.isDigit with
            | false =>
              rw [remDatesA_none_cons e cs4 (dateAt_none_head_nondigit e cs4 he)]
              exact dateAt_none_slot4 _ _ _ _ _ he
            | true =>
              cases cs4 with
              | nil =>
                rw [remDatesA_none_cons e [] (by simp [dateAt])]
                simp [remDatesA, dateAt]
              | cons f cs5 =>
                cases hf : f.isDigit with
                | false =>
                  rw [remDatesA_none_cons e (f :: cs5) (dateAt_none_slot2 _ _ _ hf),
                    digit_isWordChar e he, remDatesA_true_cons]
                  exact dateAt_none_slot5 _ _ _ _ _ _ hf
                | true =>
                  simp only [dateAt, hc, hd, he, hf, beq_self_eq_true, Bool.and_self,
                    Bool.and_true, Bool.true_and, if_true] at hn
                  have hslash : headSlash cs5 = false := by
                    cases hsl : headSlash cs5 with
                    | false => rfl
                    | true =>
                      rw [hsl, if_pos rfl] at hn
                      exact absurd hn (by split <;> simp)
                  have hword : headIsWord cs5 = true := by
                    cases hw : headIsWord cs5 with
                    | true => rfl
                    | false =>
                      rw [hslash, if_neg (by simp), hw, if_neg (by simp)] at hn
                      exact absurd hn (by simp)
                  cases cs5 with
                  | nil => exact absurd hword (by simp [headIsWord])
                  | cons w cs6 =>
                    have hww : isWordChar w = true := hword
                    have hwslash : (w == '/') = false := hslash
                    rw [remDatesA_none_cons e _ (dateAt_none_slot3 _ _ _ _ hwslash),
                      digit_isWordChar e he, remDatesA_true_cons,
                      digit_isWordChar f hf, remDatesA_true_cons]
                    simp [dateAt, hc, hd, he, hf, hwslash, hww, headSlash, headIsWord]

/-- The date scanner's output contains no date match: removal is complete. -/
theorem hasDate_remDates_out : ∀ n : Nat, ∀ l : List Char, l.length ≤ n →
    ∀ b : Bool, hasDateA b (remDatesA 0 b l) = false := by
  intro n
  induction n with
  | zero =>
    intro l hl b
    rw [List.length_eq_zero.mp (Nat.le_zero.mp hl)]
    rfl
  | succ n ih =>
    intro l hl b
    cases l with
    | nil => rfl
    | cons c cs =>
      cases hm : (if !b then dateAt (c :: cs) else none) with
      | some m =>
        have hb : b = false := by
          cases b with
          | false => rfl
          | true => simp at hm
        subst hb
        have hdm : dateAt (c :: cs) = some m := by simpa using hm
        rw [remDatesA_some_cons c cs m hdm]
        have hnd : headDigit ((c :: cs).drop m) = false := dateAt_drop_nondigit _ _ hdm
        have hm5 := dateAt_some_ge _ _ hdm
        cases hx : (c :: cs).drop m with
        | nil => rfl
        | cons a as =>
          rw [hx] at hnd
          rw [remDatesA_true_cons, hasDateA_cons,
            dateAt_none_head_nondigit a _ hnd]
          have hlen : as.length + 1 = (c :: cs).length - m := by
            rw [← List.length_drop, hx, List.length_cons]
          have hbound : as.length ≤ n := by
            simp only [List.length_cons] at hl hlen
            omega
          simpa using ih as hbound (isWordChar a)
      | none =>
        have hout : remDatesA 0 b (c :: cs) = c :: remDatesA 0 (isWordChar c) cs := by
          rw [show remDatesA 0 b (c :: cs) =
              (match (if !b then dateAt (c :: cs) else none) with
              | some n => remDatesA (n - 1) true cs
              | none => c :: remDatesA 0 (isWordChar c) cs) from rfl, hm]
        rw [hout]
        have htail : hasDateA (isWordChar c) (remDatesA 0 (isWordChar c) cs) = false :=
          ih cs (by simpa using Nat.le_of_succ_le_succ (by simpa using hl)) (isWordChar c)
        cases b with
        | true =>
          rw [hasDateA_cons]
          simpa using htail
        | false =>
          have hdn : dateAt (c :: cs) = none := by simpa using hm
          have hout2 : dateAt (c :: remDatesA 0 (isWordChar c) cs) = none := by
            cases hcd : c.isDigit with
            | false => exact dateAt_none_head_nondigit c _ hcd
            | true =>
              rw [digit_isWordChar c hcd]
              exact dateAt_none_remDates c cs hcd hdn
          rw [hasDateA_cons, hout2]
          simpa using htail

/-- A string without date matches is untouched by the date removal. -/
theorem remDatesA_noop : ∀ l : List Char, ∀ b : Bool,
    hasDateA b l = false → remDatesA 0 b l = l := by
  intro l
  induction l with
  | nil => intro b _; rfl
  | cons c cs ih =>
    intro b h
    rw [hasDateA_cons] at h
    have hcond : (!b && (dateAt (c :: cs)).isSome) = false := by
      cases hc : (!b && (dateAt (c :: cs)).isSome) with
      | false => rfl
      | true => rw [hc, if_pos rfl] at h; exact absurd h (by simp)
    rw [hcond, if_neg (by simp)] at h
    have hnone : (if !b then dateAt (c :: cs) else none) = none := by
      cases hb : b with
      | true => simp
      | false =>
        simp only [Bool.not_false, if_pos]
        rw [hb] at hcond
        simp only [Bool.not_false, Bool.true_and] at hcond
        exact Option.not_isSome_iff_eq_none.mp (by simp [hcond])
    rw [show remDatesA 0 b (c :: cs) =
        (match (if !b then dateAt (c :: cs) else none) with
        | some n => remDatesA (n - 1) true cs
        | none => c :: remDatesA 0 (isWordChar c) cs) from rfl, hnone]
    rw [ih (isWordChar c) h]

theorem collOk_cons (b : Bool) (c : Char) (cs : List Char) :
    collOk b (c :: cs) =
      if isPySpace c then (c == ' ') && !b && collOk true cs
      else collOk false cs := rfl

theorem collOk_mono (l : List Char) (h : collOk true l = true) :
    collOk false l = true := by
  cases l with
  | nil => rfl
  | cons c cs =>
    rw [collOk_cons] at h ⊢
    cases hsp : isPySpace c with
    | true =>
      rw [hsp, if_pos rfl] at h
      simp at h
    | false =>
      rw [hsp] at h
      rw [if_neg (by simp)] at h ⊢
      exact h

/-- The collapsing scanner's output is well collapsed. -/
theorem collOk_collapseA : ∀ l : List Char, ∀ b : Bool,
    collOk b (collapseA b l) = true := by
  intro l
  induction l with
  | nil => intro b; rfl
  | cons c cs ih =>
    intro b
    cases hsp : isPySpace c with
    | true =>
      cases b with
      | true =>
        rw [show collapseA true (c :: cs) =
            (if isPySpace c then collapseA true cs else c :: collapseA false cs)
            from rfl, if_pos hsp]
        exact ih true
      | false =>
        rw [collapseA_space_cons c cs hsp, collOk_cons]
        rw [if_pos (show isPySpace ' ' = true from rfl)]
        simpa using ih true
    | false =>
      rw [show collapseA b (c :: cs) =
          (if isPySpace c then
            (if b then collapseA true cs else ' ' :: collapseA true cs)
          else c :: collapseA false cs) from rfl, if_neg (by simp [hsp]),
        collOk_cons, hsp, if_neg (by simp)]
      exact ih false

/-- Well-collapsed text is untouched by the collapsing scanner. -/
theorem collOk_noop : ∀ l : List Char, ∀ b : Bool,
    collOk b l = true → collapseA b l = l := by
  intro l
  induction l with
  | nil => intro b _; rfl
  | cons c cs ih =>
    intro b h
    rw [collOk_cons] at h
    cases hsp : isPySpace c with
    | true =>
      rw [hsp, if_pos rfl] at h
      simp only [Bool.and_eq_true, Bool.not_eq_true'] at h
      obtain ⟨⟨hce, hb⟩, hrest⟩ := h
      subst hb
      rw [collapseA_space_cons c cs hsp, ih true hrest, eq_of_beq hce]
    | false =>
      rw [hsp, if_neg (by simp)] at h
      rw [show collapseA b (c :: cs) =
          (if isPySpace c then
            (if b then collapseA true cs else ' ' :: collapseA true cs)
          else c :: collapseA false cs) from rfl, if_neg (by simp [hsp]),
        ih false h]

/-- Well-collapsedness restricts to prefixes. -/
theorem collOk_append_left : ∀ (x t : List Char) (b : Bool),
    collOk b (x ++ t) = true → collOk b x = true := by
  intro x
  induction x with
  | nil => intro t b _; rfl
  | cons a x' ih =>
    intro t b h
    rw [List.cons_append, collOk_cons] at h
    rw [collOk_cons]
    cases hsp : isPySpace a with
    | true =>
      rw [hsp, if_pos rfl] at h
      rw [if_pos rfl]
      simp only [Bool.and_eq_true] at h ⊢
      exact ⟨h.1, ih t true h.2⟩
    | false =>
      rw [hsp, if_neg (by simp)] at h
      rw [if_neg (by simp)]
      exact ih t false h

/-- After any non-whitespace character, the remaining text of a
well-collapsed string is well collapsed with a clear flag. -/
theorem collOk_suffix_nonspace : ∀ (x : List Char) (b : Bool) (c : Char)
    (r : List Char), isPySpace c = false → collOk b (x ++ c :: r) = true →
    collOk false r = true := by
  intro x
  induction x with
  | nil =>
    intro b c r hc h
    rw [List.nil_append, collOk_cons, hc, if_neg (by simp)] at h
    exact h
  | cons a x' ih =>
    intro b c r hc h
    rw [List.cons_append, collOk_cons] at h
    cases hsp : isPySpace a with
    | true =>
      rw [hsp, if_pos rfl] at h
      simp only [Bool.and_eq_true] at h
      exact ih true c r hc h.2
    | false =>
      rw [hsp, if_neg (by simp)] at h
      exact ih false c r hc h

/-- Prepending a non-empty all-non-whitespace block preserves
well-collapsedness, for any incoming flag. -/
theorem collOk_prepend_nonspace : ∀ (x : List Char), x ≠ [] →
    (∀ c ∈ x, isPySpace c = false) → ∀ (b : Bool) (r : List Char),
    collOk false r = true → collOk b (x ++ r) = true := by
  intro x
  induction x with
  | nil => intro hne; exact absurd rfl hne
  | cons a x' ih =>
    intro _ hns b r hr
    rw [List.cons_append, collOk_cons, hns a (List.mem_cons_self a x'),
      if_neg (by simp)]
    cases x' with
    | nil => exact hr
    | cons a2 x2 =>
      exact ih (by simp) (fun c hc => hns c (List.mem_cons_of_mem a hc)) false r hr

/-- The head of a whitespace-`dropWhile` result is never whitespace. -/
theorem headSpace_dropWhile : ∀ l : List Char,
    headSpace (l.dropWhile isPySpace) = false := by
  intro l
  induction l with
  | nil => rfl
  | cons c cs ih =>
    cases hsp : isPySpace c with
    | true => rw [List.dropWhile_cons_of_pos hsp]; exact ih
    | false => rw [List.dropWhile_cons_of_neg (by simp [hsp])]; exact hsp

/-- A list whose head is not whitespace is untouched by whitespace
`dropWhile`. -/
theorem dropWhile_noop (l : List Char) (h : headSpace l = false) :
    l.dropWhile isPySpace = l := by
  cases l with
  | nil => rfl
  | cons c cs => exact List.dropWhile_cons_of_neg (by simp [show isPySpace c = false from h])

theorem lstrip_noop (l : List Char) (h : headSpace l = false) : lstrip l = l :=
  dropWhile_noop l h

theorem rstrip_noop (l : List Char) (h : headSpace l.reverse = false) :
    rstrip l = l := by
  rw [rstrip, dropWhile_noop l.reverse h, List.reverse_reverse]

theorem headSpace_lstrip (l : List Char) : headSpace (lstrip l) = false :=
  headSpace_dropWhile l

/-- The head of an append with a non-empty left part. -/
theorem headSpace_append_left (x t : List Char) (hx : x ≠ []) :
    headSpace (x ++ t) = headSpace x := by
  cases x with
  | nil => exact absurd rfl hx
  | cons a as => rfl

theorem headSpace_rstrip_of (l : List Char) (h : headSpace l = false) :
    headSpace (rstrip l) = false := by
  rcases (rstrip_spec l).1 with hspec
  cases hx : rstrip l with
  | nil => rfl
  | cons a as =>
    have heq : headSpace l = headSpace (rstrip l) := by
      conv_lhs => rw [hspec]
      rw [hx, List.cons_append]
      rfl
    rw [hx] at heq
    rw [← heq]
    exact h

theorem noTrail_rstrip (l : List Char) : headSpace (rstrip l).reverse = false := by
  rw [rstrip, List.reverse_reverse]
  exact headSpace_dropWhile l.reverse

theorem noTrail_lstrip_of (l : List Char) (h : headSpace l.reverse = false) :
    headSpace (lstrip l).reverse = false := by
  cases hx : lstrip l with
  | nil => rfl
  | cons a as =>
    have hsplit : l = l.takeWhile isPySpace ++ lstrip l :=
      (List.takeWhile_append_dropWhile isPySpace l).symm
    have hrev : l.reverse = (lstrip l).reverse ++ (l.takeWhile isPySpace).reverse := by
      conv_lhs => rw [hsplit]
      rw [List.reverse_append]
    rw [hrev, headSpace_append_left _ _ (by simp [hx])] at h
    rw [← hx]
    exact h

/-- Stripping is idempotent. -/
theorem stripL_stripL (l : List Char) : stripL (stripL l) = stripL l := by
  rw [stripL, stripL]
  rw [lstrip_noop (rstrip (lstrip l)) (headSpace_rstrip_of _ (headSpace_lstrip l))]
  rw [rstrip_noop (rstrip (lstrip l)) (noTrail_rstrip (lstrip l))]

theorem collOk_lstrip (l : List Char) (h : collOk false l = true) :
    collOk false (lstrip l) = true := by
  cases l with
  | nil => rfl
  | cons c cs =>
    cases hsp : isPySpace c with
    | false => rw [lstrip, List.dropWhile_cons_of_neg (by simp [hsp])]; exact h
    | true =>
      rw [collOk_cons, hsp, if_pos rfl] at h
      simp only [Bool.and_eq_true] at h
      rw [lstrip, List.dropWhile_cons_of_pos hsp]
      have h2 : collOk true cs = true := h.2
      have hnl : headSpace cs = false := by
        cases cs with
        | nil => rfl
        | cons d ds =>
          cases hd : isPySpace d with
          | false => exact hd
          | true =>
            rw [collOk_cons, hd, if_pos rfl] at h2
            simp at h2
      rw [dropWhile_noop cs hnl]
      exact collOk_mono cs h2

theorem collOk_rstrip (l : List Char) (h : collOk false l = true) :
    collOk false (rstrip l) = true := by
  have hspec := (rstrip_spec l).1
  exact collOk_append_left _ _ false (by rw [← hspec]; exact h)

/-- Sharp decomposition of a successful gateway-pattern match. -/
theorem matchSub_decomp2 (base : List Char) (opt : Bool) (l r : List Char)
    (h : matchSub base opt l = some r) :
    l = base ++ '*' :: r ∨ ∃ c, l = base ++ c :: '*' :: r := by
  rw [matchSub] at h
  split at h
  · rename_i rem heq
    cases h
    exact Or.inl (stripLead_append _ _ _ heq)
  · rename_i rem ch r1 hne heq
    split at h
    · cases h
      exact Or.inr ⟨ch, stripLead_append _ _ _ heq⟩
    · exact absurd h (by simp)
  · exact absurd h (by simp)

/-- One gateway substitution preserves collapsed-and-stripped shape, when
the replacement is a non-empty all-non-whitespace token. -/
theorem applySub_shape (base : List Char) (opt : Bool) (repl l : List Char)
    (hrne : repl ≠ []) (hrns : ∀ c ∈ repl, isPySpace c = false)
    (hco : collOk false l = true) (hhd : headSpace l = false)
    (htl : headSpace l.reverse = false) :
    collOk false (applySub base opt repl l) = true ∧
    headSpace (applySub base opt repl l) = false ∧
    headSpace (applySub base opt repl l).reverse = false := by
  rw [applySub]
  split
  · rename_i r heq
    have hdec := matchSub_decomp2 _ _ _ _ heq
    have hstar : ∃ u, l = u ++ '*' :: r := by
      rcases hdec with hd | ⟨c, hd⟩
      · exact ⟨base, hd⟩
      · exact ⟨base ++ [c], by simpa using hd⟩
    rcases hstar with ⟨u, hu⟩
    have hcor : collOk false r = true := by
      rw [hu] at hco
      exact collOk_suffix_nonspace u false '*' r (by decide) hco
    refine ⟨?_, ?_, ?_⟩
    · exact collOk_prepend_nonspace repl hrne hrns false r hcor
    · rw [headSpace_append_left repl r hrne]
      cases hrx : repl with
      | nil => exact absurd hrx hrne
      | cons a as => exact hrns a (by rw [hrx]; exact List.mem_cons_self a as)
    · rw [List.reverse_append]
      cases hr : r with
      | nil =>
        subst hr
        simp only [List.reverse_nil, List.nil_append]
        cases hrx : repl.reverse with
        | nil => rfl
        | cons a as =>
          have ha : a ∈ repl :=
            List.mem_reverse.mp (by rw [hrx]; exact List.mem_cons_self a as)
          exact hrns a ha
      | cons a as =>
        subst hr
        rw [headSpace_append_left _ _ (by simp)]
        rw [hu, List.reverse_append, List.reverse_cons, List.append_assoc] at htl
        rw [headSpace_append_left _ _ (by simp)] at htl
        exact htl
  · exact ⟨hco, hhd, htl⟩

/-- The whole gateway block preserves collapsed-and-stripped shape. -/
theorem gatewayRewrite_shape (l : List Char)
    (hco : collOk false l = true) (hhd : headSpace l = false)
    (htl : headSpace l.reverse = false) :
    collOk false (gatewayRewrite l) = true ∧
    headSpace (gatewayRewrite l) = false ∧
    headSpace (gatewayRewrite l).reverse = false := by
  rw [gatewayRewrite]
  have h1 := applySub_shape ['D','L'] false gwRepl l (by decide) (by decide) hco hhd htl
  have h2 := applySub_shape ['M','P'] true gwRepl _ (by decide) (by decide) h1.1 h1.2.1 h1.2.2
  have h3 := applySub_shape ['P','A','G'] false gwRepl _ (by decide) (by decide) h2.1 h2.2.1 h2.2.2
  have h4 := applySub_shape ['I','F','D'] false gwRepl _ (by decide) (by decide) h3.1 h3.2.1 h3.2.2
  have h5 := applySub_shape ['E','C'] true gwRepl _ (by decide) (by decide) h4.1 h4.2.1 h4.2.2
  have h6 := applySub_shape ['E','B','N'] false gwRepl _ (by decide) (by decide) h5.1 h5.2.1 h5.2.2
  have h7 := applySub_shape ['P','G'] true gwRepl _ (by decide) (by decide) h6.1 h6.2.1 h6.2.2
  exact applySub_shape ['P','I','C','P','A','Y'] false ppRepl _ (by decide) (by decide)
    h7.1 h7.2.1 h7.2.2

/-- Uppercasing is the identity on already-uppercased text. -/
theorem upperL_noop (l : List Char) (h : ∀ c ∈ l, upperChar c = c) :
    upperL l = l := by
  induction l with
  | nil => rfl
  | cons c cs ih =>
    rw [upperL, List.map_cons, h c (List.mem_cons_self c cs)]
    rw [show List.map upperChar cs = upperL cs from rfl,
      ih (fun d hd => h d (List.mem_cons_of_mem c hd))]

/-- Accent removal is the identity on clean text. -/
theorem deaccentL_noop (l : List Char) (h : ∀ c ∈ l, cleanChar c = true) :
    deaccentL l = l := by
  induction l with
  | nil => rfl
  | cons c cs ih =>
    have hc := h c (List.mem_cons_self c cs)
    simp only [cleanChar, Bool.and_eq_true] at hc
    rw [deaccentL, List.flatMap_cons]
    rw [show nfdChar c = [c] from by
      have hnone : nfdTable.find? (fun e => e.1 == c) = none :=
        Option.isNone_iff_eq_none.mp hc.1.1
      rw [nfdChar, hnone]]
    rw [List.filter_append]
    rw [show List.filter (fun c => !isMark c) [c] = [c] from by
      simp [List.filter, hc.1.2]]
    have ih2 := ih (fun d hd => h d (List.mem_cons_of_mem c hd))
    rw [deaccentL] at ih2
    rw [List.cons_append, List.nil_append, ih2]

/-- The pipeline output never contains a date-pattern match. -/
theorem hasDate_normalizeL (l : List Char) : hasDate (normalizeL l) = false := by
  rw [normalizeL, hasDate]
  rw [hasDate_stripL]
  rw [show collapseL (gatewayRewrite (remDates (remRuns (deaccentL (stripL (upperL l)))))) =
      collapseA false (gatewayRewrite (remDates (remRuns (deaccentL (stripL (upperL l))))))
      from rfl]
  rw [hasDate_collapse_aux _ _ (le_refl _)]
  rw [hasDate_gatewayRewrite]
  rw [show remDates (remRuns (deaccentL (stripL (upperL l)))) =
      remDatesA 0 false (remRuns (deaccentL (stripL (upperL l)))) from rfl]
  exact hasDate_remDates_out _ _ (le_refl _) false

/-- The pipeline output is collapsed and stripped. -/
theorem normalizeL_shape (l : List Char) :
    collOk false (normalizeL l) = true ∧ headSpace (normalizeL l) = false ∧
    headSpace (normalizeL l).reverse = false := by
  rw [normalizeL, stripL]
  refine ⟨?_, ?_, ?_⟩
  · exact collOk_rstrip _ (collOk_lstrip _ (collOk_collapseA _ false))
  · exact headSpace_rstrip_of _ (headSpace_lstrip _)
  · exact noTrail_rstrip _

theorem matchSub_ppDL (r : List Char) : matchSub ['D','L'] false (ppRepl ++ r) = none := rfl

theorem matchSub_ppMP (r : List Char) : matchSub ['M','P'] true (ppRepl ++ r) = none := rfl

theorem matchSub_ppPAG (r : List Char) : matchSub ['P','A','G'] false (ppRepl ++ r) = none := rfl

theorem matchSub_ppIFD (r : List Char) : matchSub ['I','F','D'] false (ppRepl ++ r) = none := rfl

theorem matchSub_ppEC (r : List Char) : matchSub ['E','C'] true (ppRepl ++ r) = none := rfl

theorem matchSub_ppEBN (r : List Char) : matchSub ['E','B','N'] false (ppRepl ++ r) = none := rfl

theorem matchSub_ppPG (r : List Char) : matchSub ['P','G'] true (ppRepl ++ r) = none := rfl

theorem matchSub_ppPICPAY (r : List Char) :
    matchSub ['P','I','C','P','A','Y'] false (ppRepl ++ r) = some r := by
  have hs : stripLead ['P','I','C','P','A','Y'] (ppRepl ++ r) = some ('*' :: r) := rfl
  simp only [matchSub, hs]

/-- A rewritten `GATEWAY*` output is a fixed point of the gateway block. -/
theorem gatewayRewrite_gwOut (r : List Char) :
    gatewayRewrite (gwRepl ++ r) = gwRepl ++ r := by
  simp [gatewayRewrite, applySub, matchSub_gwDL, matchSub_gwMP, matchSub_gwPAG,
    matchSub_gwIFD, matchSub_gwEC, matchSub_gwEBN, matchSub_gwPG, matchSub_gwPICPAY]

/-- A rewritten `PICPAY*` output is a fixed point of the gateway block. -/
theorem gatewayRewrite_ppOut (r : List Char) :
    gatewayRewrite (ppRepl ++ r) = ppRepl ++ r := by
  simp [gatewayRewrite, applySub, matchSub_ppDL, matchSub_ppMP, matchSub_ppPAG,
    matchSub_ppIFD, matchSub_ppEC, matchSub_ppEBN, matchSub_ppPG, matchSub_ppPICPAY]

/-- The gateway-substitution block is idempotent. -/
theorem gatewayRewrite_idem (l : List Char) :
    gatewayRewrite (gatewayRewrite l) = gatewayRewrite l := by
  cases h1 : matchSub ['D','L'] false l with
  | some r =>
    have hout : gatewayRewrite l = gwRepl ++ r := by
      simp [gatewayRewrite, applySub, h1, matchSub_gwMP, matchSub_gwPAG,
        matchSub_gwIFD, matchSub_gwEC, matchSub_gwEBN, matchSub_gwPG, matchSub_gwPICPAY]
    rw [hout, gatewayRewrite_gwOut]
  | none =>
  cases h2 : matchSub ['M','P'] true l with
  | some r =>
    have hout : gatewayRewrite l = gwRepl ++ r := by
      simp [gatewayRewrite, applySub, h1, h2, matchSub_gwPAG,
        matchSub_gwIFD, matchSub_gwEC, matchSub_gwEBN, matchSub_gwPG, matchSub_gwPICPAY]
    rw [hout, gatewayRewrite_gwOut]
  | none =>
  cases h3 : matchSub ['P','A','G'] false l with
  | some r =>
    have hout : gatewayRewrite l = gwRepl ++ r := by
      simp [gatewayRewrite, applySub, h1, h2, h3,
        matchSub_gwIFD, matchSub_gwEC, matchSub_gwEBN, matchSub_gwPG, matchSub_gwPICPAY]
    rw [hout, gatewayRewrite_gwOut]
  | none =>
  cases h4 : matchSub ['I','F','D'] false l with
  | some r =>
    have hout : gatewayRewrite l = gwRepl ++ r := by
      simp [gatewayRewrite, applySub, h1, h2, h3, h4,
        matchSub_gwEC, matchSub_gwEBN, matchSub_gwPG, matchSub_gwPICPAY]
    rw [hout, gatewayRewrite_gwOut]
  | none =>
  cases h5 : matchSub ['E','C'] true l with
  | some r =>
    have hout : gatewayRewrite l = gwRepl ++ r := by
      simp [gatewayRewrite, applySub, h1, h2, h3, h4, h5,
        matchSub_gwEBN, matchSub_gwPG, matchSub_gwPICPAY]
    rw [hout, gatewayRewrite_gwOut]
  | none =>
  cases h6 : matchSub ['E','B','N'] false l with
  | some r =>
    have hout : gatewayRewrite l = gwRepl ++ r := by
      simp [gatewayRewrite, applySub, h1, h2, h3, h4, h5, h6,
        matchSub_gwPG, matchSub_gwPICPAY]
    rw [hout, gatewayRewrite_gwOut]
  | none =>
  cases h7 : matchSub ['P','G'] true l with
  | some r =>
    have hout : gatewayRewrite l = gwRepl ++ r := by
      simp [gatewayRewrite, applySub, h1, h2, h3, h4, h5, h6, h7, matchSub_gwPICPAY]
    rw [hout, gatewayRewrite_gwOut]
  | none =>
  cases h8 : matchSub ['P','I','C','P','A','Y'] false l with
  | some r =>
    have hout : gatewayRewrite l = ppRepl ++ r := by
      simp [gatewayRewrite, applySub, h1, h2, h3, h4, h5, h6, h7, h8]
    rw [hout, gatewayRewrite_ppOut]
  | none =>
    have hout : gatewayRewrite l = l := by
      simp [gatewayRewrite, applySub, h1, h2, h3, h4, h5, h6, h7, h8]
    rw [hout, hout]

/-- A second normalization pass reduces to the gateway block alone: every
other stage is the identity on already-normalized text. -/
theorem normalizeL_normalizeL (l : List Char) :
    normalizeL (normalizeL l) = gatewayRewrite (normalizeL l) := by
  have hclean := normalizeL_clean l
  have hshape := normalizeL_shape l
  have hrun : hasRunA false (normalizeL l) = false := hasRun_normalizeL l
  have hdate : hasDateA false (normalizeL l) = false := hasDate_normalizeL l
  have hup : ∀ c ∈ normalizeL l, upperChar c = c := by
    intro c hc
    have h2 := hclean c hc
    simp only [cleanChar, Bool.and_eq_true] at h2
    exact eq_of_beq h2.2
  have hstrip : stripL (normalizeL l) = normalizeL l := by
    rw [show normalizeL l = stripL (collapseL (gatewayRewrite
        (remDates (remRuns (deaccentL (stripL (upperL l))))))) from rfl, stripL_stripL]
  conv_lhs => rw [normalizeL]
  rw [upperL_noop _ hup, hstrip, deaccentL_noop _ hclean]
  rw [show remRuns (normalizeL l) = remRunsA 0 false (normalizeL l) from rfl,
    remRunsA_noop _ false hrun]
  rw [show remDates (normalizeL l) = remDatesA 0 false (normalizeL l) from rfl,
    remDatesA_noop _ false hdate]
  obtain ⟨hco, hhd, htl⟩ :=
    gatewayRewrite_shape (normalizeL l) hshape.1 hshape.2.1 hshape.2.2
  rw [show collapseL (gatewayRewrite (normalizeL l)) =
      collapseA false (gatewayRewrite (normalizeL l)) from rfl,
    collOk_noop _ false hco]
  rw [stripL, lstrip_noop _ hhd, rstrip_noop _ htl]

/-- Normalization stabilizes after two passes. -/
theorem normalizeL_triple (l : List Char) :
    normalizeL (normalizeL (normalizeL l)) = normalizeL (normalizeL l) := by
  rw [normalizeL_normalizeL (normalizeL l), normalizeL_normalizeL l,
    gatewayRewrite_idem, ← normalizeL_normalizeL l]

/-- C3 counterexample: the source's normalization is not idempotent.  On
"1234 DL*X" the first pass deletes the leading digit run, which leaves the
gateway prefix behind a space so no gateway rule fires, and the final strip
then moves "DL*" to the start of the string; the second pass rewrites it. -/
theorem normalize_not_idempotent :
    normalize_description (normalize_description "1234 DL*X") ≠
      normalize_description "1234 DL*X" := by decide

/-- C3 (amended): a second application of `normalize_description` equals the
gateway-substitution block applied to the first pass's output (all other
stages are the identity there), and normalization stabilizes from the second
application on: the third application returns the second's output unchanged. -/
theorem normalize_second_pass (s : String) :
    normalize_description (normalize_description s) =
      gatewayRewriteStr (normalize_description s) ∧
    normalize_description (normalize_description (normalize_description s)) =
      normalize_description (normalize_description s) := by
  by_cases hs : s = ""
  · subst hs
    exact ⟨rfl, rfl⟩
  · have hyt : (normalize_description s).toList = normalizeL s.toList := by
      rw [normalize_description, if_neg hs, toList_mk]
    by_cases hy0 : normalize_description s = ""
    · rw [hy0]
      constructor
      · rfl
      · rfl
    · have h1 : normalize_description (normalize_description s) =
          ⟨normalizeL (normalizeL s.toList)⟩ := by
        rw [normalize_description, if_neg hy0, hyt]
      have hgw : gatewayRewriteStr (normalize_description s) =
          ⟨gatewayRewrite (normalizeL s.toList)⟩ := by
        rw [gatewayRewriteStr, hyt]
      refine ⟨?_, ?_⟩
      · rw [h1, hgw, normalizeL_normalizeL]
      · by_cases hz : normalize_description (normalize_description s) = ""
        · rw [hz]
          rfl
        · rw [normalize_description, if_neg hz, h1, toList_mk, normalizeL_triple]
